import Mathlib

/-
  Verification development for the Radiant MCP server core
  (wallet key derivation, BIP39/BIP32, Base58Check/WIF, coin selection,
  and the Glyph commit/reveal minting protocol).

  Shallow embedding conventions:
  * JS strings are modelled as `List Char`, byte buffers as `List Nat`
    (each entry a byte value, with `< 256` hypotheses where the source
    relies on byte-ness).
  * JS `number`/`bigint` arithmetic is modelled with `Nat` where the
    source values are non-negative, and with `Int` together with
    truncated division/remainder (`Int.tdiv`/`Int.tmod`, which match
    JS `bigint` `/` and `%`) where the source can produce negatives.
  * Fallible code returns `Except Err`, with `Err` covering the error
    taxonomy the sources throw.
  * External collaborators (the ElectrumX indexer, the radiantjs signer,
    node:crypto hashes, and the random source) are modelled as explicit
    function/value parameters, since their implementations are not part
    of this repository's core.
-/

/-- Error taxonomy of the core (each constructor corresponds to a `throw`
site in the sources; `network` stands for an error value reported by an
external collaborator and propagated verbatim). -/
inductive Err where
  | invalidKey
  | invalidChecksum
  | badBase58
  | insufficientFunds (needed : Nat) (available : Nat)
  | noUtxosCommit
  | noUtxosReveal
  | tokenUtxoNotFound
  | invalidPath
  | invalidWordCount
  | rangeError
  | unsupportedVersion
  | network (code : Nat)
deriving DecidableEq

/-- Big-endian base-`B` accumulation `foldl (fun a d => a * B + d) 0`.
Models JS `BigInt("0x" + buf.toString("hex"))` (B = 256), `parseInt(bits, 2)`
(B = 2) and similar digit-string folds. -/
def foldBase (B : Nat) (l : List Nat) : Nat :=
  l.foldl (fun a d => a * B + d) 0

/-- Big-endian digits of `n` in base `b`, most significant first, with an
explicit structural fuel so that the kernel can evaluate it; `digitsBE`
below instantiates the fuel with `n`, which always suffices. Models the
JS loops `while (num > 0) { s = digit(num % b) + s; num /= b }` and
`num.toString(16)` / `num.toString(2)`. -/
def digitsBEAux (b : Nat) : Nat → Nat → List Nat
  | 0, _ => []
  | fuel + 1, n => if n = 0 then [] else digitsBEAux b fuel (n / b) ++ [n % b]

/-- Big-endian base-`b` digits of `n`, most significant first (empty for 0). -/
def digitsBE (b n : Nat) : List Nat :=
  digitsBEAux b n n

/-- Big-endian bits of `n`, exactly `k` of them (high bits truncated).
`bitsBE 8 byte` models `byte.toString(2).padStart(8, "0")` for `byte < 256`,
and `bitsBE 11 idx` models `idx.toString(2).padStart(11, "0")` for
`idx < 2048`, as lists of 0/1 values. -/
def bitsBE : Nat → Nat → List Nat
  | 0, _ => []
  | k + 1, n => (n / 2 ^ k) % 2 :: bitsBE k (n % 2 ^ k)

/-- Combine a nibble list (values < 16) pairwise into bytes; models
`Buffer.from(hexString, "hex")` once the hex string is a nibble list. -/
def pairNibbles : List Nat → List Nat
  | a :: b :: t => (a * 16 + b) :: pairNibbles t
  | _ => []

/-- Bytes of `x.toString(16).padStart(64, "0")` decoded as hex, i.e. the
32-byte big-endian encoding of `x`, as produced for private keys, public
key x-coordinates and BIP32 child keys. Faithful for `x < 2 ^ 256`, which
holds at every call site (values are reduced mod the curve prime or order). -/
def hexPadBytes (x : Nat) : List Nat :=
  let nibs := if x = 0 then [0] else digitsBE 16 x
  pairNibbles (List.replicate (64 - nibs.length) 0 ++ nibs)

/-- Big-endian 4-byte encoding; models `Buffer.writeUInt32BE n` for
`n < 2 ^ 32`. -/
def u32be (n : Nat) : List Nat :=
  [n / 2 ^ 24 % 256, n / 2 ^ 16 % 256, n / 2 ^ 8 % 256, n % 256]

/-- JS whitespace test for the characters this repository's inputs can
contain (model of the regexp class `\s` restricted to ASCII). -/
def isJsWs (c : Char) : Bool :=
  c = ' ' ∨ c = '\t' ∨ c = '\n' ∨ c = '\r' ∨ c.toNat = 11 ∨ c.toNat = 12

/-- Decimal digit test, models the character range check of `parseInt`. -/
def isDigitChar (c : Char) : Bool :=
  48 ≤ c.toNat ∧ c.toNat ≤ 57

/-- Longest decimal digit run at the front, as a number; `none` models the
NaN result of `parseInt` when no digit is found. -/
def parseDigits (l : List Char) : Option Nat :=
  let ds := l.takeWhile isDigitChar
  if ds = [] then none
  else some (ds.foldl (fun a c => 10 * a + (c.toNat - 48)) 0)

/-- Model of JS `parseInt(s, 10)`: skip leading whitespace, optional sign,
then the longest digit prefix; `none` models NaN. -/
def parseIntJS (s : List Char) : Option Int :=
  match s.dropWhile isJsWs with
  | '-' :: rest => (parseDigits rest).map (fun n => -(n : Int))
  | '+' :: rest => (parseDigits rest).map (fun n => (n : Int))
  | rest => (parseDigits rest).map (fun n => (n : Int))

/-- Model of JS `String.prototype.split(sep)` for a single-character
separator (always returns at least one, possibly empty, part). -/
def splitOnChar (sep : Char) : List Char → List (List Char)
  | [] => [[]]
  | c :: t =>
    match splitOnChar sep t with
    | [] => [[c]]
    | w :: ws => if c = sep then [] :: w :: ws else (c :: w) :: ws

-- ────────────────────────────────────────────────────────────
-- tx-builder.ts : constants, size estimation, coin selection
-- ────────────────────────────────────────────────────────────

/-- UTXO as reported by the ElectrumX indexer (`RawUTXO` in tx-builder.ts). -/
structure RawUTXO where
  tx_hash : List Char
  tx_pos : Nat
  height : Nat
  value : Nat
deriving DecidableEq

/-- Result of `selectCoins` in tx-builder.ts. -/
structure CoinSelection where
  selected : List RawUTXO
  totalIn : Nat
deriving DecidableEq

/-- Signing result of radiantjs `buildAndSign` (`BuildResult` in
tx-builder.ts); produced by the external signer, opaque to this core. -/
structure BuildResult where
  txid : List Char
  rawTx : List Char
  fee : Nat
  inputCount : Nat
  outputCount : Nat
deriving DecidableEq

/-- Transaction size estimate of tx-builder.ts `estimateTxSize`:
TX_OVERHEAD 10, P2PKH_INPUT_SIZE 148, P2PKH_OUTPUT_SIZE 34,
OP_RETURN_OVERHEAD 9 plus each payload size. -/
def estimateTxSize (inputCount outputCount : Nat) (opReturnSizes : List Nat) : Nat :=
  10 + inputCount * 148 + outputCount * 34 +
    (opReturnSizes.map (fun s => 9 + s)).sum

/-- Sum of the `value` fields of a UTXO list. -/
def sumVal (l : List RawUTXO) : Nat :=
  (l.map RawUTXO.value).sum

/-- The value-descending (stable, as JS `sort` is) ordering used by
`selectCoins` via `sort((a, b) => b.value - a.value)`. -/
def sortByValueDesc (utxos : List RawUTXO) : List RawUTXO :=
  utxos.insertionSort (fun a b => b.value ≤ a.value)

/-- The accumulation loop of `selectCoins`: push the next UTXO, recompute
the fee bound at the new input count, stop as soon as the bound is met. -/
def selectCoinsGo (target fpb oc : Nat) (ops : List Nat) :
    List RawUTXO → List RawUTXO → Nat → CoinSelection
  | [], selected, totalIn => ⟨selected, totalIn⟩
  | u :: rest, selected, totalIn =>
    let selected2 := selected ++ [u]
    let totalIn2 := totalIn + u.value
    let fee := estimateTxSize selected2.length (oc + 1) ops * fpb
    if target + fee ≤ totalIn2 then ⟨selected2, totalIn2⟩
    else selectCoinsGo target fpb oc ops rest selected2 totalIn2

/-- tx-builder.ts `selectCoins`: largest-first greedy selection with the
fee bound recomputed after each addition, and a final insufficient-funds
check carrying required vs. available amounts. -/
def selectCoins (utxos : List RawUTXO) (target fpb oc : Nat)
    (ops : List Nat) : Except Err CoinSelection :=
  let r := selectCoinsGo target fpb oc ops (sortByValueDesc utxos) [] 0
  let fee := estimateTxSize r.selected.length (oc + 1) ops * fpb
  if r.totalIn < target + fee then .error (.insufficientFunds (target + fee) r.totalIn)
  else .ok r

/-- Fee bound used by `selectCoins` for a prefix of `k` inputs. -/
def feeFor (oc : Nat) (ops : List Nat) (fpb k : Nat) : Nat :=
  estimateTxSize k (oc + 1) ops * fpb

/-- The `k`-element prefix of the sorted list meets the target plus the fee
bound computed at its own length. -/
def prefixMeets (sorted : List RawUTXO) (target fpb oc : Nat)
    (ops : List Nat) (k : Nat) : Prop :=
  target + feeFor oc ops fpb k ≤ sumVal (sorted.take k)

instance (sorted : List RawUTXO) (target fpb oc : Nat) (ops : List Nat) (k : Nat) :
    Decidable (prefixMeets sorted target fpb oc ops k) := by
  unfold prefixMeets; infer_instance

-- ────────────────────────────────────────────────────────────
-- tx-builder.ts : transferToken and createFungibleToken
-- ────────────────────────────────────────────────────────────

/-- The dust threshold `DUST_SATOSHIS` of tx-builder.ts. -/
def DUST : Nat := 546

/-- Parse a token reference `txid_vout` the way `transferToken` does:
split on the underscore, take the first part as txid, `parseInt` the
second part (defaulting to the string "0" when absent); `none` in the
second component models a NaN vout. -/
def parseTokenRef (tokenRef : List Char) : List Char × Option Int :=
  let parts := splitOnChar '_' tokenRef
  (parts.headD [], parseIntJS (((parts.drop 1).headD [ '0' ])))

/-- The predicate `u.tx_hash === refTxid && u.tx_pos === refVout` used by
`transferToken` both to find the token UTXO and to exclude it from the
fee-covering candidates (a NaN vout matches nothing). -/
def refMatch (refTxid : List Char) (refVout : Option Int) (u : RawUTXO) : Bool :=
  u.tx_hash == refTxid && refVout == some (u.tx_pos : Int)

/-- Input selection of `transferToken` (tx-builder.ts lines 523-550):
locate the token UTXO, spend it alone if its value covers
`amount + estimateTxSize(2,2) * feePerByte + DUST`, otherwise prepend it
to a `selectCoins` pick over the UTXO set with the token UTXO filtered
out. -/
def transferTokenInputs (allUtxos : List RawUTXO) (refTxid : List Char)
    (refVout : Option Int) (amount fpb : Nat) : Except Err (List RawUTXO) :=
  match allUtxos.find? (refMatch refTxid refVout) with
  | none => .error .tokenUtxoNotFound
  | some tokenUtxo =>
    let feeUtxos := allUtxos.filter (fun u => ! refMatch refTxid refVout u)
    let estimatedFee := estimateTxSize 2 2 [] * fpb
    if amount + estimatedFee + DUST ≤ tokenUtxo.value then
      .ok [tokenUtxo]
    else
      match selectCoins feeUtxos (estimatedFee + DUST) fpb 2 [] with
      | .error e => .error e
      | .ok r => .ok (tokenUtxo :: r.selected)

/-- Collaborator behaviour for one `transferToken` call: the indexer's
`listUnspent` response, the radiantjs signer, and the broadcast response. -/
structure TransferEnv where
  listUnspentResp : Except Err (List RawUTXO)
  signTransfer : List RawUTXO → BuildResult
  broadcastResp : Except Err (List Char)

/-- tx-builder.ts `transferToken`, over an explicit collaborator
behaviour. The second component of the result is the list of raw
transactions successfully broadcast during the call. -/
def transferToken (env : TransferEnv) (tokenRef : List Char)
    (amount fpb : Nat) : Except Err BuildResult × List (List Char) :=
  let ref := parseTokenRef tokenRef
  match env.listUnspentResp with
  | .error e => (.error e, [])
  | .ok allUtxos =>
    match transferTokenInputs allUtxos ref.1 ref.2 amount fpb with
    | .error e => (.error e, [])
    | .ok selectedUtxos =>
      let result := env.signTransfer selectedUtxos
      match env.broadcastResp with
      | .error e => (.error e, [])
      | .ok txid => (.ok { result with txid := txid }, [result.rawTx])

/-- Result of `createFungibleToken` (`MintResult` in tx-builder.ts). -/
structure MintResult where
  commitTxid : List Char
  commitRawTx : List Char
  revealTxid : List Char
  revealRawTx : List Char
  tokenRef : List Char
  commitFee : Nat
  revealFee : Nat
deriving DecidableEq

/-- Collaborator behaviour for one `createFungibleToken` call, in the
order the calls are issued: first `listUnspent`, commit broadcast, second
`listUnspent`, reveal broadcast. The radiantjs Glyph envelope encoders
only contribute the commit/reveal script lengths to the fee bounds, and
the radiantjs signer is the `signCommit`/`signReveal` function. -/
structure MintEnv where
  commitScriptLen : Nat
  revealScriptLen : Nat
  signCommit : List RawUTXO → BuildResult
  signReveal : List RawUTXO → BuildResult
  listUnspent1 : Except Err (List RawUTXO)
  broadcast1 : Except Err (List Char)
  listUnspent2 : Except Err (List RawUTXO)
  broadcast2 : Except Err (List Char)

/-- tx-builder.ts `createFungibleToken` over an explicit collaborator
behaviour: commit coin selection and broadcast, then reveal coin
selection and broadcast, with no retry and no compensating action. The
second component of the result is the list of raw transactions
successfully broadcast during the call. -/
def createFungibleToken (env : MintEnv) (supply fpb : Nat) :
    Except Err MintResult × List (List Char) :=
  match env.listUnspent1 with
  | .error e => (.error e, [])
  | .ok utxos1 =>
    if utxos1 = [] then (.error .noUtxosCommit, []) else
    match selectCoins utxos1 DUST fpb 1 [env.commitScriptLen] with
    | .error e => (.error e, [])
    | .ok sel1 =>
      let commitResult := env.signCommit sel1.selected
      match env.broadcast1 with
      | .error e => (.error e, [])
      | .ok commitTxid =>
        match env.listUnspent2 with
        | .error e => (.error e, [commitResult.rawTx])
        | .ok utxos2 =>
          if utxos2 = [] then (.error .noUtxosReveal, [commitResult.rawTx]) else
          let tokenSatoshis := max supply DUST
          match selectCoins utxos2 tokenSatoshis fpb 2 [env.revealScriptLen] with
          | .error e => (.error e, [commitResult.rawTx])
          | .ok sel2 =>
            let revealResult := env.signReveal sel2.selected
            match env.broadcast2 with
            | .error e => (.error e, [commitResult.rawTx])
            | .ok revealTxid =>
              (.ok { commitTxid := commitTxid
                     commitRawTx := commitResult.rawTx
                     revealTxid := revealTxid
                     revealRawTx := revealResult.rawTx
                     tokenRef := revealTxid ++ [ '_', '0' ]
                     commitFee := commitResult.fee
                     revealFee := revealResult.fee },
               [commitResult.rawTx, revealResult.rawTx])

-- ────────────────────────────────────────────────────────────
-- references.ts : secp256k1, Base58Check, AgentWallet
-- ────────────────────────────────────────────────────────────

/-- secp256k1 field prime. -/
def Pcurve : Nat :=
  0xFFFFFFFFFFFFFFFFFFFFFFFFFFFFFFFFFFFFFFFFFFFFFFFFFFFFFFFEFFFFFC2F

/-- secp256k1 group order. -/
def Ncurve : Nat :=
  0xFFFFFFFFFFFFFFFFFFFFFFFFFFFFFFFEBAAEDCE6AF48A03BBFD25E8CD0364141

/-- Generator x-coordinate. -/
def GXc : Nat :=
  0x79BE667EF9DCBBAC55A06295CE870B07029BFCDB2DCE28D959F2815B16F81798

/-- Generator y-coordinate. -/
def GYc : Nat :=
  0x483ADA7726A3C4655DA4FBFC0E1108A8FD17B448A68554199C47D08FFB10D4B8

/-- Extended-Euclid loop shared by both `modInv` implementations
(references.ts and the HD-derivation module): JS
`while (r1 !== 0n) { q = r0 / r1; [r0,r1] = [r1, r0 - q*r1]; [s0,s1] = [s1, s0 - q*s1] }`
with truncated bigint division, returning the final `s0`. -/
def egcdLoop (r0 r1 s0 s1 : Int) : Int :=
  if _h : r1 = 0 then s0
  else egcdLoop r1 (r0 - r0.tdiv r1 * r1) s1 (s0 - r0.tdiv r1 * s1)
termination_by r1.natAbs
decreasing_by
  have e : r0 - r0.tdiv r1 * r1 = r0.tmod r1 := by
    rw [Int.tmod_def]; ring
  rw [e]
  rcases r0 with m | m <;> rcases r1 with n | n <;>
    simp_all [Int.tmod, Int.natAbs_ofNat, Int.natAbs_negSucc, Int.natAbs_neg] <;>
    exact Nat.mod_lt _ (by omega)

namespace Refs

/-- references.ts `modInv` (note: `r0` starts at `a % m`, not normalized
into `[0, m)`). -/
def modInv (a m : Int) : Int :=
  ((egcdLoop (a.tmod m) m 1 0).tmod m + m).tmod m

/-- references.ts `ecAdd` in affine coordinates with JS truncated `%`
(the slope and the y-coordinate can come out negative here, unlike the
HD-module variant below; x-coordinates stay in `[0, P)`). -/
def ecAdd (p q : Int × Int) : Int × Int :=
  let P : Int := (Pcurve : Int)
  let s :=
    if p.1 = q.1 ∧ p.2 = q.2 then
      ((3 * p.1 * p.1) * modInv (2 * p.2) P).tmod P
    else
      ((q.2 - p.2) * modInv ((q.1 - p.1 + P).tmod P) P).tmod P
  let x3 := (s * s - p.1 - q.1 + 2 * P).tmod P
  let y3 := (s * (p.1 - x3 + P) - p.2 + P).tmod P
  (x3, y3)

end Refs

/-- Binary double-and-add loop shared by both `ecMul` implementations,
parameterized by the point-addition function of the respective module:
JS `while (k > 0) { if (k & 1) r := first ? q : add(r, q); q := add(q, q); k >>= 1 }`. -/
def ecMulGo (add : Int × Int → Int × Int → Int × Int) :
    Nat → Int × Int → Int × Int → Bool → Int × Int
  | 0, _, r, _ => r
  | k + 1, q, r, first =>
    let hit := (k + 1) % 2 = 1
    let r2 := if hit then (if first then q else add r q) else r
    let first2 := if hit then false else first
    ecMulGo add ((k + 1) / 2) (add q q) r2 first2
termination_by k => k
decreasing_by
  exact Nat.div_lt_self (Nat.succ_pos _) (by decide)

namespace Refs

/-- references.ts `ecMul`: double-and-add from `(0, 0)` with a first-hit
flag. -/
def ecMul (k : Nat) (p : Int × Int) : Int × Int :=
  ecMulGo ecAdd k p (0, 0) true

/-- references.ts `privToPubKey`: scalar from the key bytes, multiply the
generator, emit parity prefix byte and the 32-byte big-endian
x-coordinate (`x.toString(16).padStart(64, "0")`). -/
def privToPubKey (privKey : List Nat) : List Nat :=
  let k := foldBase 256 privKey
  let xy := ecMul k ((GXc : Int), (GYc : Int))
  (if xy.2.tmod 2 = 0 then 2 else 3) :: hexPadBytes xy.1.toNat

end Refs

/-- The Base58 alphabet of references.ts. -/
def B58 : List Char :=
  [ '1', '2', '3', '4', '5', '6', '7', '8', '9',
    'A', 'B', 'C', 'D', 'E', 'F', 'G', 'H', 'J', 'K', 'L', 'M', 'N',
    'P', 'Q', 'R', 'S', 'T', 'U', 'V', 'W', 'X', 'Y', 'Z',
    'a', 'b', 'c', 'd', 'e', 'f', 'g', 'h', 'i', 'j', 'k', 'm', 'n',
    'o', 'p', 'q', 'r', 's', 't', 'u', 'v', 'w', 'x', 'y', 'z' ]

/-- Digit-to-character table lookup `B58[d]` (always in range at call
sites since `d < 58`). -/
def b58Char (d : Nat) : Char :=
  B58.getD d ' '

/-- Character-to-digit lookup `B58.indexOf(c)`, `none` for `-1`. -/
def b58Index (c : Char) : Option Nat :=
  B58.findIdx? (fun x => x = c)

/-- references.ts `b58encode`: base-58 digits of the big-endian value of
the buffer, with one leading `'1'` per leading zero byte. Faithful for
nonempty buffers (the sources never encode an empty one). -/
def b58encode (buf : List Nat) : List Char :=
  List.replicate (buf.takeWhile (fun b => b = 0)).length '1' ++
    (digitsBE 58 (foldBase 256 buf)).map b58Char

/-- references.ts `b58decode`: accumulate the base-58 value (failing on a
character outside the alphabet), count leading `'1'` characters as zero
bytes, and append the minimal big-endian bytes of the value (JS hex
round-trip: a zero value still contributes the byte `0x00`). -/
def b58decode (s : List Char) : Except Err (List Nat) :=
  match s.foldlM (fun num c => (b58Index c).map (fun i => num * 58 + i)) 0 with
  | none => .error .badBase58
  | some num =>
    let zeros := (s.takeWhile (fun c => c = '1')).length
    let bytes := if num = 0 then [0] else digitsBE 256 num
    .ok (List.replicate zeros 0 ++ bytes)

/-- references.ts `b58check` given the double-SHA-256 collaborator
function: version byte, payload, then the first 4 checksum bytes. -/
def b58check (sha256d : List Nat → List Nat) (version : Nat)
    (payload : List Nat) : List Char :=
  let vp := version :: payload
  b58encode (vp ++ (sha256d vp).take 4)

/-- Network tag of an `AgentWallet`. -/
inductive Network where
  | mainnet
  | testnet
deriving DecidableEq

/-- references.ts `AgentWallet` state: the stored private key bytes and
network. The `publicKey`/`address` fields the constructor computes are
deterministic functions of these two (see `walletPublicKey` /
`walletAddress` below), so equality of this state implies equality of all
constructor-computed fields. -/
structure AgentWallet where
  privKey : List Nat
  network : Network
deriving DecidableEq

/-- The `publicKey` field computed by the `AgentWallet` constructor. -/
def walletPublicKey (w : AgentWallet) : List Nat :=
  Refs.privToPubKey w.privKey

/-- The `address` field computed by the `AgentWallet` constructor:
Base58Check of HASH160 of the public key under the network's address
version byte (0x00 mainnet, 0x6f testnet). -/
def walletAddress (sha256d hash160 : List Nat → List Nat)
    (w : AgentWallet) : List Char :=
  b58check sha256d (if w.network = Network.mainnet then 0x00 else 0x6f)
    (hash160 (walletPublicKey w))

/-- The `AgentWallet` private constructor: reject a scalar outside
`[1, N)`, otherwise store the key bytes and network. -/
def mkWallet (privKey : List Nat) (network : Network) :
    Except Err AgentWallet :=
  let k := foldBase 256 privKey
  if k = 0 ∨ Ncurve ≤ k then .error .invalidKey
  else .ok ⟨privKey, network⟩

/-- JS `TypedArray.subarray(a, b)` index resolution: negative indices
count from the end, then clamp into `[0, len]`. -/
def jsIdx (len : Nat) (i : Int) : Nat :=
  if i < 0 then ((len : Int) + i).toNat else min i.toNat len

/-- JS `decoded.subarray(a, b)` on a byte list. -/
def jsSubarray (l : List Nat) (a b : Int) : List Nat :=
  (l.take (jsIdx l.length b)).drop (jsIdx l.length a)

/-- Payload part of a decoded WIF: `decoded.subarray(0, decoded.length - 4)`. -/
def wifPayload (decoded : List Nat) : List Nat :=
  jsSubarray decoded 0 ((decoded.length : Int) - 4)

/-- Checksum part of a decoded WIF: `decoded.subarray(decoded.length - 4)`. -/
def wifChecksum (decoded : List Nat) : List Nat :=
  jsSubarray decoded ((decoded.length : Int) - 4) (decoded.length : Int)

/-- Key bytes of a decoded WIF: strip the version byte and, when byte
`decoded.length - 5` is the compression flag 0x01, take exactly 32 bytes
(`decoded[decoded.length - 5]` is `undefined` in JS when the buffer is
shorter than 5, so the flag test then fails). -/
def wifKeyBytes (decoded : List Nat) : List Nat :=
  if 5 ≤ decoded.length ∧ decoded.getD (decoded.length - 5) 0 = 1 then
    jsSubarray decoded 1 33
  else
    jsSubarray decoded 1 ((decoded.length : Int) - 4)

/-- references.ts `AgentWallet.fromWIF`: Base58-decode, verify the 4-byte
double-SHA-256 checksum, read the network from the version byte
(0x80 means mainnet, anything else testnet), strip the optional
compression flag and rebuild the wallet (which re-validates the scalar). -/
def fromWIF (sha256d : List Nat → List Nat) (wif : List Char) :
    Except Err AgentWallet :=
  match b58decode wif with
  | .error e => .error e
  | .ok decoded =>
    if (sha256d (wifPayload decoded)).take 4 ≠ wifChecksum decoded then
      .error .invalidChecksum
    else
      let network :=
        if decoded.getD 0 0 = 0x80 then Network.mainnet else Network.testnet
      mkWallet (wifKeyBytes decoded) network

/-- references.ts `AgentWallet.getWIF`: Base58Check of the private key
with a trailing compression flag, under the network's WIF version byte
(0x80 mainnet, 0xef testnet). -/
def getWIF (sha256d : List Nat → List Nat) (w : AgentWallet) : List Char :=
  b58check sha256d (if w.network = Network.mainnet then 0x80 else 0xef)
    (w.privKey ++ [1])

-- ────────────────────────────────────────────────────────────
-- HD derivation module (BIP32 part of the mnemonic/HD source file)
-- ────────────────────────────────────────────────────────────

namespace HD

/-- HD-module `modInv` (this variant normalizes `r0` into `[0, m)` before
the loop, unlike the references.ts one). -/
def modInv (a m : Int) : Int :=
  ((egcdLoop ((a.tmod m + m).tmod m) m 1 0).tmod m + m).tmod m

/-- HD-module `ecAdd`: every intermediate is normalized into `[0, P)`. -/
def ecAdd (p q : Int × Int) : Int × Int :=
  let P : Int := (Pcurve : Int)
  let s :=
    if p.1 = q.1 ∧ p.2 = q.2 then
      ((3 * p.1 * p.1) * modInv (2 * p.2) P).tmod P
    else
      (((q.2 - p.2 + P).tmod P) * modInv ((q.1 - p.1 + P).tmod P) P).tmod P
  let x3 := ((s * s - p.1 - q.1).tmod P + P).tmod P
  let y3 := ((s * ((p.1 - x3 + P).tmod P) - p.2).tmod P + P).tmod P
  (x3, y3)

/-- HD-module `ecMul`: double-and-add with this module's `ecAdd`. -/
def ecMul (k : Nat) (p : Int × Int) : Int × Int :=
  ecMulGo ecAdd k p (0, 0) true

/-- HD-module `compressedPubKey`: parity prefix plus 32-byte big-endian
x-coordinate. -/
def compressedPubKey (privKey : List Nat) : List Nat :=
  let k := foldBase 256 privKey
  let xy := ecMul k ((GXc : Int), (GYc : Int))
  (if xy.2.tmod 2 = 0 then 2 else 3) :: hexPadBytes xy.1.toNat

end HD

/-- Extended key `HDKey` of the HD module: private key and chain code. -/
structure HDKey where
  privateKey : List Nat
  chainCode : List Nat
deriving DecidableEq

namespace HD

/-- ASCII bytes of the string "Bitcoin seed" (HMAC key of
`masterKeyFromSeed`). -/
def bitcoinSeedKey : List Nat :=
  [66, 105, 116, 99, 111, 105, 110, 32, 115, 101, 101, 100]

/-- HD-module `masterKeyFromSeed` over the HMAC-SHA512 collaborator: left
32 bytes are the private key, right 32 the chain code; fails when the key
scalar is 0 or at least the curve order. -/
def masterKeyFromSeed (hmac : List Nat → List Nat → List Nat)
    (seed : List Nat) : Except Err HDKey :=
  let I := hmac bitcoinSeedKey seed
  let k := foldBase 256 (I.take 32)
  if k = 0 ∨ Ncurve ≤ k then .error .invalidKey
  else .ok ⟨I.take 32, I.drop 32⟩

/-- The 37-byte HMAC message of `deriveChild`, with the buffer-copy
semantics of `Buffer.alloc(37)` plus `copy` plus `writeUInt32BE` made
explicit (truncate the copied source to its window, keep the allocation's
zero bytes where the source is shorter). -/
def childData (parent : HDKey) (index : Nat) : List Nat :=
  if 2 ^ 31 ≤ index then
    0 :: (parent.privateKey.take 32 ++
      List.replicate (32 - parent.privateKey.length) 0) ++ u32be index
  else
    let pk := compressedPubKey parent.privateKey
    (pk.take 33 ++ List.replicate (33 - pk.length) 0) ++ u32be index

/-- HD-module `deriveChild` over the HMAC-SHA512 collaborator: hardened
exactly when `index ≥ 2^31`; `writeUInt32BE` raises a range error outside
`[0, 2^32)`; the child key is `(HMAC_left + parent) mod N`, rejected when
`HMAC_left ≥ N` or the sum is 0. -/
def deriveChild (hmac : List Nat → List Nat → List Nat) (parent : HDKey)
    (index : Int) : Except Err HDKey :=
  if index < 0 ∨ (2 ^ 32 : Int) ≤ index then .error .rangeError
  else
    let I := hmac parent.chainCode (childData parent index.toNat)
    let il := foldBase 256 (I.take 32)
    let kPar := foldBase 256 parent.privateKey
    let kChild := (il + kPar) % Ncurve
    if Ncurve ≤ il ∨ kChild = 0 then .error .invalidKey
    else .ok ⟨hexPadBytes kChild, I.drop 32⟩

/-- The apostrophe character marking hardened segments. -/
def apostrophe : Char := Char.ofNat 39

/-- Split one path segment into its hardened flag (`endsWith("'")`) and
the part handed to `parseInt`. -/
def stripHardened (part : List Char) : Bool × List Char :=
  if part.getLast? = some apostrophe then (true, part.dropLast) else (false, part)

/-- The segment loop of `derivePath`: parse each segment with `parseInt`
(failing on NaN), add `2^31` for hardened segments, and derive
sequentially. -/
def derivePathGo (hmac : List Nat → List Nat → List Nat) :
    List (List Char) → HDKey → Except Err HDKey
  | [], key => .ok key
  | part :: rest, key =>
    let sh := stripHardened part
    match parseIntJS sh.2 with
    | none => .error .invalidPath
    | some index =>
      match deriveChild hmac key (if sh.1 then index + 2 ^ 31 else index) with
      | .error e => .error e
      | .ok key2 => derivePathGo hmac rest key2

/-- HD-module `derivePath`: split on "/", require the first segment to be
exactly "m", then derive masterKey and children along the segments. -/
def derivePath (hmac : List Nat → List Nat → List Nat) (seed : List Nat)
    (path : List Char) : Except Err (List Nat) :=
  let parts := splitOnChar '/' path
  if parts.headD [] ≠ [ 'm' ] then .error .invalidPath
  else
    match masterKeyFromSeed hmac seed with
    | .error e => .error e
    | .ok key0 =>
      match derivePathGo hmac (parts.drop 1) key0 with
      | .error e => .error e
      | .ok key => .ok key.privateKey

end HD

/-- Modelled from the spec: validity of one path segment under the grammar
`digits ["'"]` (a nonempty decimal digit run with an optional trailing
apostrophe). -/
def specSegValid (seg : List Char) : Bool :=
  let core := if seg.getLast? = some HD.apostrophe then seg.dropLast else seg
  decide (core ≠ []) && core.all isDigitChar

/-- Modelled from the spec: validity of a derivation path under the
grammar `"m" ("/" digits ["'"])*`. -/
def specPathValid (path : List Char) : Bool :=
  match splitOnChar '/' path with
  | [] => false
  | p0 :: rest => p0 == [ 'm' ] && rest.all specSegValid

-- ────────────────────────────────────────────────────────────
-- BIP39 mnemonic generation and validation
-- ────────────────────────────────────────────────────────────

/-- The `STRENGTH_MAP` of the mnemonic module. -/
def strengthOf (wordCount : Nat) : Option Nat :=
  if wordCount = 12 then some 128
  else if wordCount = 15 then some 160
  else if wordCount = 18 then some 192
  else if wordCount = 21 then some 224
  else if wordCount = 24 then some 256
  else none

/-- Split a list into consecutive chunks of size `k` (the `for (i, i+k)`
slicing loops of the mnemonic module). -/
def chunksOf (k : Nat) (l : List α) : List (List α) :=
  match l with
  | [] => []
  | a :: t =>
    if _hk : k = 0 then []
    else (a :: t).take k :: chunksOf k ((a :: t).drop k)
termination_by l.length
decreasing_by
  simp [List.length_drop]
  omega

/-- Model of `words.join(" ")`. -/
def joinWords : List (List Char) → List Char
  | [] => []
  | w :: ws => w ++ ws.flatMap (fun v => ' ' :: v)

/-- Model of `String.prototype.trim`. -/
def trimJs (l : List Char) : List Char :=
  ((l.dropWhile isJsWs).reverse.dropWhile isJsWs).reverse

/-- Model of `split(/\s+/)` on a trimmed string: maximal whitespace runs
separate the words (on a trimmed, non-degenerate input this agrees with
the JS behaviour; JS would produce one leading empty string for
whitespace-led input, which like the empty result fails the word-count
check in `validateMnemonic`). -/
def splitWs : List Char → List (List Char)
  | [] => []
  | c :: t =>
    if isJsWs c then splitWs t
    else (c :: t.takeWhile (fun x => ! isJsWs x)) ::
      splitWs (t.dropWhile (fun x => ! isJsWs x))
termination_by l => l.length
decreasing_by
  · simp
  · have h := (List.dropWhile_sublist (l := t) (p := fun x => ! isJsWs x)).length_le
    simp
    omega

namespace Mnemo

/-- Mnemonic-module `generateMnemonic` over the SHA-256 collaborator
`sha`, the (spec-modelled) 2048-entry wordlist `wl` and the random source
`rand` (which stands for `randomBytes`): draw `strength/8` entropy bytes,
append `strength/32` checksum bits from the first hash byte, cut into
11-bit groups and join the indexed words with spaces. -/
def generateMnemonic (sha : List Nat → List Nat) (wl : List (List Char))
    (rand : Nat → List Nat) (wordCount : Nat) : Except Err (List Char) :=
  match strengthOf wordCount with
  | none => .error .invalidWordCount
  | some strength =>
    let entropy := rand (strength / 8)
    let hash := sha entropy
    let checksumBits := strength / 32
    let bits := entropy.flatMap (bitsBE 8) ++
      (bitsBE 8 (hash.headD 0)).take checksumBits
    let words := (chunksOf 11 bits).map (fun g => wl.getD (foldBase 2 g) [])
    .ok (joinWords words)

/-- Mnemonic-module `validateMnemonic`: trim, lowercase and split the
phrase, check the word count, reverse-map words to indices (false on an
unknown word), rebuild the bit string, and compare the trailing checksum
bits against the recomputed hash of the entropy prefix. -/
def validateMnemonic (sha : List Nat → List Nat) (wl : List (List Char))
    (mnemonic : List Char) : Bool :=
  let words := splitWs ((trimJs mnemonic).map Char.toLower)
  match strengthOf words.length with
  | none => false
  | some _ =>
    match words.mapM (fun w => wl.findIdx? (fun x => x == w)) with
    | none => false
    | some indices =>
      let bits := indices.flatMap (bitsBE 11)
      let entropyBits := words.length * 11 * 32 / 33
      let checksumBits := bits.length - entropyBits
      let entropyBytes := (chunksOf 8 (bits.take entropyBits)).map (foldBase 2)
      let hash := sha entropyBytes
      let checksumActual := (bitsBE 8 (hash.headD 0)).take checksumBits
      bits.drop entropyBits == checksumActual

end Mnemo

-- ────────────────────────────────────────────────────────────
-- Concrete inputs used by counterexamples and witnesses
-- ────────────────────────────────────────────────────────────

/-- A UTXO worth 772 photons. -/
def cexU1 : RawUTXO := ⟨[ 'a' ], 0, 0, 772⟩

/-- A UTXO worth 1 photon. -/
def cexU2 : RawUTXO := ⟨[ 'b' ], 0, 0, 1⟩

/-- Degenerate double-SHA-256 stand-in (constant 32-byte output); the
properties proved about WIF handling are parametric in the hash, so any
function with the right output length instantiates them. -/
def shaZero : List Nat → List Nat := fun _ => List.replicate 32 0

/-- Degenerate HMAC-SHA512 stand-in with a constant 64-byte output whose
left half is the scalar 1 (a valid key). -/
def hmacMock : List Nat → List Nat → List Nat :=
  fun _ _ => (List.replicate 31 0 ++ [1]) ++ List.replicate 32 0

/-- The path string `m/1x'`: rejected by the spec grammar (the segment is
not a digit run), accepted by `parseInt`. -/
def badPath : List Char := [ 'm', '/', '1', 'x' ] ++ [HD.apostrophe]

/-- Base58 string decoding to bytes `80 00 00 00 00 00`: under `shaZero`
its checksum verifies and it carries the key scalar 0. -/
def cexWifZeroKey : List Char := [ '2', '6', 'j', 'w', 'E', 'u', 'x', 'a', 'T' ]

/-- Base58 string decoding to bytes `80 07 00 00 00 00`: under `shaZero`
its checksum verifies and it carries the key scalar 7. -/
def witWifSeven : List Char := [ '2', '6', 'k', 'j', '3', 'd', 'm', 'a', 'P' ]

/-- A signing stand-in returning a fixed build result. -/
def signMock : List RawUTXO → BuildResult :=
  fun _ => ⟨[ 't' ], [ 'r' ], 5, 1, 2⟩

/-- Mint collaborator behaviour where the commit phase succeeds (one
1000-photon UTXO, commit broadcast ok) and the second `listUnspent`
reports a collaborator error. -/
def mintEnvW : MintEnv :=
  { commitScriptLen := 10
    revealScriptLen := 10
    signCommit := signMock
    signReveal := signMock
    listUnspent1 := .ok [⟨[ 'c' ], 0, 0, 1000⟩]
    broadcast1 := .ok [ 'x' ]
    listUnspent2 := .error (.network 7)
    broadcast2 := .ok [ 'y' ] }

/-- Transfer collaborator behaviour whose UTXO set does not contain the
referenced token UTXO. -/
def transferEnvW : TransferEnv :=
  { listUnspentResp := .ok [⟨[ 'c' ], 1, 0, 5000⟩]
    signTransfer := signMock
    broadcastResp := .ok [ 'x' ] }

/-- Mock wordlist entry `i`: three lowercase letters encoding `i` in base
26 (distinct for `i < 17576`, so in particular on `i < 2048`). -/
def mkMockWord (i : Nat) : List Char :=
  [Char.ofNat (97 + i / 676), Char.ofNat (97 + i / 26 % 26), Char.ofNat (97 + i % 26)]

/-- A 2048-entry mock wordlist with the properties the spec requires of
the BIP39 English list (fixed size, distinct lowercase whitespace-free
words). -/
def wlMock : List (List Char) :=
  (List.range 2048).map mkMockWord

/-- Degenerate entropy source: `k` zero bytes on request `k`. -/
def randZero : Nat → List Nat := fun k => List.replicate k 0

-- ────────────────────────────────────────────────────────────
-- Generic lemmas about the byte/digit helpers
-- ────────────────────────────────────────────────────────────

theorem foldBase_go (B : Nat) (l : List Nat) :
    ∀ a : Nat, l.foldl (fun x d => x * B + d) a = a * B ^ l.length + foldBase B l := by
  induction l with
  | nil => intro a; simp [foldBase]
  | cons b t ih =>
    intro a
    have h1 : (b :: t).foldl (fun x d => x * B + d) a =
        t.foldl (fun x d => x * B + d) (a * B + b) := rfl
    have h2 : foldBase B (b :: t) = t.foldl (fun x d => x * B + d) b := by
      simp [foldBase]
    rw [h1, ih (a * B + b), h2, ih b]
    simp [List.length_cons, pow_succ]
    ring

theorem foldBase_cons (B b : Nat) (t : List Nat) :
    foldBase B (b :: t) = b * B ^ t.length + foldBase B t := by
  have h : foldBase B (b :: t) = t.foldl (fun x d => x * B + d) b := by
    simp [foldBase]
  rw [h, foldBase_go]

theorem foldBase_append (B : Nat) (l1 l2 : List Nat) :
    foldBase B (l1 ++ l2) = foldBase B l1 * B ^ l2.length + foldBase B l2 := by
  induction l1 with
  | nil => simp [foldBase]
  | cons b t ih =>
    rw [List.cons_append, foldBase_cons, foldBase_cons, ih]
    simp [List.length_append, pow_add]
    ring

theorem foldBase_eq_ofDigits (B : Nat) (l : List Nat) :
    foldBase B l = Nat.ofDigits B l.reverse := by
  induction l with
  | nil => simp [foldBase]
  | cons b t ih =>
    rw [foldBase_cons, ih, List.reverse_cons, Nat.ofDigits_append,
      Nat.ofDigits_singleton, List.length_reverse]
    ring

theorem foldBase_lt (B : Nat) (l : List Nat)
    (h : ∀ d ∈ l, d < B) : foldBase B l < B ^ l.length := by
  induction l with
  | nil => simp [foldBase]
  | cons b t ih =>
    rw [foldBase_cons]
    have hb : b < B := h b (by simp)
    have ht : foldBase B t < B ^ t.length := ih (fun d hd => h d (by simp [hd]))
    have : b * B ^ t.length + foldBase B t < (b + 1) * B ^ t.length := by
      have := Nat.add_lt_add_left ht (b * B ^ t.length)
      calc b * B ^ t.length + foldBase B t
          < b * B ^ t.length + B ^ t.length := this
        _ = (b + 1) * B ^ t.length := by ring
    calc b * B ^ t.length + foldBase B t < (b + 1) * B ^ t.length := this
      _ ≤ B * B ^ t.length := Nat.mul_le_mul_right _ hb
      _ = B ^ (b :: t).length := by rw [List.length_cons, pow_succ]; ring

theorem foldBase_replicate_zero (B k : Nat) (l : List Nat) :
    foldBase B (List.replicate k 0 ++ l) = foldBase B l := by
  induction k with
  | zero => simp
  | succ k ih =>
    rw [List.replicate_succ, List.cons_append, foldBase_cons, ih]
    simp

theorem digitsBEAux_eq (b : Nat) (hb : 2 ≤ b) :
    ∀ fuel n, n ≤ fuel → digitsBEAux b fuel n = (Nat.digits b n).reverse := by
  intro fuel
  induction fuel with
  | zero =>
    intro n hn
    interval_cases n
    simp [digitsBEAux]
  | succ fuel ih =>
    intro n hn
    by_cases h0 : n = 0
    · subst h0; simp [digitsBEAux]
    · have hpos : 0 < n := Nat.pos_of_ne_zero h0
      have hdiv : n / b < n := Nat.div_lt_self hpos (by omega)
      have hle : n / b ≤ fuel := by omega
      rw [digitsBEAux, if_neg h0, ih _ hle,
        Nat.digits_def' (by omega : 1 < b) hpos, List.reverse_cons]

theorem digitsBE_eq (b n : Nat) (hb : 2 ≤ b) :
    digitsBE b n = (Nat.digits b n).reverse :=
  digitsBEAux_eq b hb n n le_rfl

theorem foldBase_digitsBE (b n : Nat) (hb : 2 ≤ b) :
    foldBase b (digitsBE b n) = n := by
  rw [digitsBE_eq b n hb, foldBase_eq_ofDigits, List.reverse_reverse,
    Nat.ofDigits_digits]

theorem digitsBE_foldBase (b : Nat) (l : List Nat) (hb : 2 ≤ b)
    (hd : ∀ d ∈ l, d < b) (hh : l.head? ≠ some 0) :
    digitsBE b (foldBase b l) = l := by
  rw [foldBase_eq_ofDigits, digitsBE_eq _ _ hb]
  have h1 : Nat.digits b (Nat.ofDigits b l.reverse) = l.reverse := by
    apply Nat.digits_ofDigits b (by omega)
    · intro d hdm; exact hd d (by simpa using hdm)
    · intro hne
      have h2 : l.reverse.getLast hne = l.head (by simpa using hne) := by
        have := List.getLast?_reverse l
        rw [List.getLast?_eq_getLast _ hne] at this
        rw [List.head?_eq_head (by simpa using hne)] at this
        exact Option.some_injective _ this
      rw [h2]
      intro hcon
      apply hh
      rw [List.head?_eq_head (by simpa using hne), hcon]
  rw [h1, List.reverse_reverse]

theorem digitsBE_length_le (b n k : Nat) (hb : 2 ≤ b) (h : n < b ^ k) :
    (digitsBE b n).length ≤ k := by
  rw [digitsBE_eq _ _ hb, List.length_reverse]
  by_cases h0 : n = 0
  · subst h0; simp
  · rw [Nat.digits_len b n (by omega) h0]
    have := Nat.log_lt_of_lt_pow h0 h
    omega

theorem digitsBE_lt_base (b n : Nat) (hb : 2 ≤ b) :
    ∀ d ∈ digitsBE b n, d < b := by
  intro d hd
  rw [digitsBE_eq _ _ hb] at hd
  exact Nat.digits_lt_base (by omega) (by simpa using hd)

theorem pairNibbles_length : ∀ l : List Nat, (pairNibbles l).length = l.length / 2
  | [] => by simp [pairNibbles]
  | [a] => by simp [pairNibbles]
  | a :: b :: t => by
    rw [pairNibbles]
    simp [pairNibbles_length t]
    omega

theorem pairNibbles_foldl : ∀ l : List Nat, l.length % 2 = 0 →
    ∀ x : Nat, (pairNibbles l).foldl (fun n d => n * 256 + d) x =
      l.foldl (fun n d => n * 16 + d) x
  | [], _ => by intro x; simp [pairNibbles]
  | [a], h => by simp at h
  | a :: b :: t, h => by
    intro x
    have ht : t.length % 2 = 0 := by simp at h; omega
    rw [pairNibbles]
    have h1 : ((a * 16 + b) :: pairNibbles t).foldl (fun n d => n * 256 + d) x =
        (pairNibbles t).foldl (fun n d => n * 256 + d) (x * 256 + (a * 16 + b)) := rfl
    have h2 : (a :: b :: t).foldl (fun n d => n * 16 + d) x =
        t.foldl (fun n d => n * 16 + d) ((x * 16 + a) * 16 + b) := rfl
    rw [h1, h2, pairNibbles_foldl t ht]
    congr 1
    ring

theorem foldBase_pairNibbles (l : List Nat) (h : l.length % 2 = 0) :
    foldBase 256 (pairNibbles l) = foldBase 16 l := by
  have := pairNibbles_foldl l h 0
  simpa [foldBase] using this

theorem pairNibbles_lt : ∀ l : List Nat, (∀ d ∈ l, d < 16) →
    ∀ x ∈ pairNibbles l, x < 256
  | [], _ => by simp [pairNibbles]
  | [a], _ => by simp [pairNibbles]
  | a :: b :: t, h => by
    intro x hx
    rw [pairNibbles] at hx
    rcases List.mem_cons.mp hx with hx | hx
    · have ha : a < 16 := h a (by simp)
      have hb : b < 16 := h b (by simp)
      subst hx
      omega
    · exact pairNibbles_lt t (fun d hd => h d (by simp [hd])) x hx

theorem hexPadBytes_length (x : Nat) (h : x < 2 ^ 256) :
    (hexPadBytes x).length = 32 := by
  unfold hexPadBytes
  have hlen : (if x = 0 then [0] else digitsBE 16 x).length ≤ 64 := by
    by_cases h0 : x = 0
    · simp [h0]
    · simp only [if_neg h0]
      exact digitsBE_length_le 16 x 64 (by omega) (by norm_num at h ⊢; omega)
  rw [pairNibbles_length]
  simp only [List.length_append, List.length_replicate]
  omega

theorem hexPadBytes_foldBase (x : Nat) (h : x < 2 ^ 256) :
    foldBase 256 (hexPadBytes x) = x := by
  unfold hexPadBytes
  have hlen : (if x = 0 then [0] else digitsBE 16 x).length ≤ 64 := by
    by_cases h0 : x = 0
    · simp [h0]
    · simp only [if_neg h0]
      exact digitsBE_length_le 16 x 64 (by omega) (by norm_num at h ⊢; omega)
  rw [foldBase_pairNibbles _ (by simp [List.length_append, List.length_replicate]; omega),
    foldBase_replicate_zero]
  by_cases h0 : x = 0
  · simp [h0, foldBase]
  · simp only [if_neg h0]
    exact foldBase_digitsBE 16 x (by omega)

theorem hexPadBytes_lt (x : Nat) : ∀ b ∈ hexPadBytes x, b < 256 := by
  unfold hexPadBytes
  apply pairNibbles_lt
  intro d hd
  rcases List.mem_append.mp hd with hd | hd
  · have := List.eq_of_mem_replicate hd
    omega
  · by_cases h0 : x = 0
    · simp [h0] at hd; omega
    · simp only [if_neg h0] at hd
      exact digitsBE_lt_base 16 x (by omega) d hd

theorem bitsBE_length : ∀ k n : Nat, (bitsBE k n).length = k
  | 0, _ => rfl
  | k + 1, n => by rw [bitsBE]; simp [bitsBE_length k]

theorem bitsBE_lt : ∀ k n : Nat, ∀ b ∈ bitsBE k n, b < 2
  | 0, _ => by simp [bitsBE]
  | k + 1, n => by
    intro b hb
    rw [bitsBE] at hb
    rcases List.mem_cons.mp hb with hb | hb
    · subst hb
      omega
    · exact bitsBE_lt k _ b hb

theorem foldBase_bitsBE : ∀ k n : Nat, n < 2 ^ k → foldBase 2 (bitsBE k n) = n
  | 0, n => by intro h; interval_cases n; rfl
  | k + 1, n => by
    intro h
    rw [bitsBE, foldBase_cons, bitsBE_length,
      foldBase_bitsBE k (n % 2 ^ k) (Nat.mod_lt _ (Nat.pos_pow_of_pos k (by omega)))]
    have hdiv : n / 2 ^ k < 2 := by
      rw [Nat.div_lt_iff_lt_mul (Nat.pos_pow_of_pos k (by omega))]
      rw [pow_succ] at h
      omega
    rw [Nat.mod_eq_of_lt hdiv]
    conv_lhs => rw [mul_comm]
    exact Nat.div_add_mod n (2 ^ k)

theorem bitsBE_foldBase : ∀ g : List Nat, (∀ b ∈ g, b < 2) →
    bitsBE g.length (foldBase 2 g) = g := by
  intro g
  induction g with
  | nil => intro _; rfl
  | cons b t ih =>
    intro h
    have hb : b < 2 := h b (by simp)
    have ht : ∀ x ∈ t, x < 2 := fun x hx => h x (by simp [hx])
    have htlt : foldBase 2 t < 2 ^ t.length := foldBase_lt 2 t ht
    rw [List.length_cons, foldBase_cons, bitsBE]
    have hpos : 0 < 2 ^ t.length := Nat.pos_pow_of_pos t.length (by omega)
    have hdiv : (b * 2 ^ t.length + foldBase 2 t) / 2 ^ t.length = b := by
      rw [add_comm, Nat.add_mul_div_right _ _ hpos, Nat.div_eq_of_lt htlt]
      omega
    have hmod : (b * 2 ^ t.length + foldBase 2 t) % 2 ^ t.length = foldBase 2 t := by
      rw [mul_comm, Nat.mul_add_mod, Nat.mod_eq_of_lt htlt]
    rw [hdiv, hmod, Nat.mod_eq_of_lt hb, ih ht]

-- ────────────────────────────────────────────────────────────
-- Coin selection: loop specification and the C1 claim
-- ────────────────────────────────────────────────────────────

theorem sumVal_cons (u : RawUTXO) (t : List RawUTXO) :
    sumVal (u :: t) = u.value + sumVal t := by
  simp [sumVal]

theorem selectCoinsGo_step (target fpb oc : Nat) (ops : List Nat)
    (u : RawUTXO) (t selected : List RawUTXO) (totalIn : Nat) :
    selectCoinsGo target fpb oc ops (u :: t) selected totalIn =
      if target + feeFor oc ops fpb (selected.length + 1) ≤ totalIn + u.value
      then ⟨selected ++ [u], totalIn + u.value⟩
      else selectCoinsGo target fpb oc ops t (selected ++ [u]) (totalIn + u.value) := by
  simp [selectCoinsGo, feeFor]

theorem selectCoinsGo_spec (target fpb oc : Nat) (ops : List Nat) :
    ∀ (rest selected : List RawUTXO) (totalIn : Nat),
      ∃ k, k ≤ rest.length ∧
        selectCoinsGo target fpb oc ops rest selected totalIn =
          ⟨selected ++ rest.take k, totalIn + sumVal (rest.take k)⟩ ∧
        (rest ≠ [] → 1 ≤ k) ∧
        (∀ j, 1 ≤ j → j < k →
          ¬ (target + feeFor oc ops fpb (selected.length + j) ≤
              totalIn + sumVal (rest.take j))) ∧
        ((target + feeFor oc ops fpb (selected.length + k) ≤
            totalIn + sumVal (rest.take k)) ∨
          (k = rest.length ∧ (1 ≤ k →
            ¬ (target + feeFor oc ops fpb (selected.length + k) ≤
                totalIn + sumVal (rest.take k))))) := by
  intro rest
  induction rest with
  | nil =>
    intro selected totalIn
    refine ⟨0, le_rfl, ?_, by simp, by omega, Or.inr ⟨rfl, by omega⟩⟩
    simp [selectCoinsGo, sumVal]
  | cons u t ih =>
    intro selected totalIn
    have htake1 : (u :: t).take 1 = [u] := rfl
    have hsum1 : sumVal ((u :: t).take 1) = u.value := by
      rw [htake1, sumVal_cons]; simp [sumVal]
    by_cases hc : target + feeFor oc ops fpb (selected.length + 1) ≤ totalIn + u.value
    · refine ⟨1, by simp, ?_, fun _ => le_rfl, by omega, Or.inl ?_⟩
      · rw [selectCoinsGo_step, if_pos hc, htake1]
        simp [sumVal]
      · rw [hsum1]; exact hc
    · obtain ⟨k', hk'le, hk'eq, _hk'ne, hk'mid, hk'fin⟩ := ih (selected ++ [u]) (totalIn + u.value)
      have hlen : (selected ++ [u]).length = selected.length + 1 := by simp
      have htakes : ∀ j : Nat, (u :: t).take (j + 1) = u :: t.take j :=
        fun j => List.take_succ_cons
      have hsums : ∀ j : Nat, sumVal ((u :: t).take (j + 1)) = u.value + sumVal (t.take j) := by
        intro j; rw [htakes j, sumVal_cons]
      refine ⟨k' + 1, by simp; omega, ?_, fun _ => by omega, ?_, ?_⟩
      · rw [selectCoinsGo_step, if_neg hc, hk'eq, htakes k', sumVal_cons]
        simp [List.append_assoc, add_assoc]
      · intro j hj1 hjk
        rcases Nat.exists_eq_add_of_le hj1 with ⟨j', rfl⟩
        rcases Nat.eq_zero_or_pos j' with rfl | hj'
        · simpa [hsum1] using hc
        · have := hk'mid j' hj' (by omega)
          rw [hlen] at this
          rw [Nat.add_comm 1 j', hsums j']
          have harith : selected.length + 1 + j' = selected.length + (j' + 1) := by omega
          rw [← harith]
          intro hcon
          exact this (by omega)
      · rcases hk'fin with hfin | ⟨hkeq, hneg⟩
        · left
          rw [hlen] at hfin
          rw [hsums k']
          have harith : selected.length + (k' + 1) = selected.length + 1 + k' := by omega
          rw [harith]
          omega
        · right
          refine ⟨by simp [hkeq], ?_⟩
          intro _
          rcases Nat.eq_zero_or_pos k' with rfl | hk'pos
          · simpa [hsum1] using hc
          · have := hneg hk'pos
            rw [hlen] at this
            rw [hsums k']
            have harith : selected.length + (k' + 1) = selected.length + 1 + k' := by omega
            rw [harith]
            omega

theorem estimateTxSize_pos (ic oc : Nat) (ops : List Nat) :
    0 < estimateTxSize ic oc ops := by
  unfold estimateTxSize
  omega

theorem prefixMeets_zero_one (sorted : List RawUTXO) (target fpb oc : Nat)
    (ops : List Nat) (h0 : prefixMeets sorted target fpb oc ops 0) :
    prefixMeets sorted target fpb oc ops 1 := by
  have h0' : target + estimateTxSize 0 (oc + 1) ops * fpb ≤ 0 := by
    simpa [prefixMeets, feeFor, sumVal] using h0
  have htgt : target = 0 := by omega
  have hmul : estimateTxSize 0 (oc + 1) ops * fpb = 0 := by omega
  have hfpb : fpb = 0 := by
    rcases Nat.mul_eq_zero.mp hmul with he | hf
    · exact absurd he (Nat.pos_iff_ne_zero.mp (estimateTxSize_pos 0 (oc + 1) ops))
    · exact hf
  unfold prefixMeets feeFor
  rw [htgt, hfpb]
  simp
theorem sortByValueDesc_length (utxos : List RawUTXO) :
    (sortByValueDesc utxos).length = utxos.length :=
  List.length_insertionSort _ utxos

theorem sortByValueDesc_perm (utxos : List RawUTXO) :
    (sortByValueDesc utxos).Perm utxos :=
  List.perm_insertionSort _ utxos

instance : IsTotal RawUTXO (fun a b => b.value ≤ a.value) :=
  ⟨fun a b => le_total b.value a.value⟩

instance : IsTrans RawUTXO (fun a b => b.value ≤ a.value) :=
  ⟨fun _ _ _ hab hbc => le_trans hbc hab⟩

theorem sortByValueDesc_sorted (utxos : List RawUTXO) :
    (sortByValueDesc utxos).Sorted (fun a b => b.value ≤ a.value) :=
  List.sorted_insertionSort _ utxos

theorem selectCoins_master (utxos : List RawUTXO) (target fpb oc : Nat) (ops : List Nat) :
    ∃ k, k ≤ utxos.length ∧
      (utxos ≠ [] → 1 ≤ k) ∧
      (∀ j, 1 ≤ j → j < k → ¬ prefixMeets (sortByValueDesc utxos) target fpb oc ops j) ∧
      (prefixMeets (sortByValueDesc utxos) target fpb oc ops k ∨
        (k = utxos.length ∧ (1 ≤ k →
          ¬ prefixMeets (sortByValueDesc utxos) target fpb oc ops k))) ∧
      (prefixMeets (sortByValueDesc utxos) target fpb oc ops k →
        selectCoins utxos target fpb oc ops =
          .ok ⟨(sortByValueDesc utxos).take k, sumVal ((sortByValueDesc utxos).take k)⟩) ∧
      (¬ prefixMeets (sortByValueDesc utxos) target fpb oc ops k →
        selectCoins utxos target fpb oc ops =
          .error (.insufficientFunds (target + feeFor oc ops fpb k)
            (sumVal ((sortByValueDesc utxos).take k)))) := by
  obtain ⟨k, hkle, heq, hne, hmid, hfin⟩ :=
    selectCoinsGo_spec target fpb oc ops (sortByValueDesc utxos) [] 0
  rw [sortByValueDesc_length] at hkle
  have hlen : ((sortByValueDesc utxos).take k).length = k := by
    rw [List.length_take, sortByValueDesc_length]
    omega
  have hsel : selectCoinsGo target fpb oc ops (sortByValueDesc utxos) [] 0 =
      ⟨(sortByValueDesc utxos).take k, sumVal ((sortByValueDesc utxos).take k)⟩ := by
    rw [heq]; simp
  refine ⟨k, hkle, ?_, ?_, ?_, ?_, ?_⟩
  · intro hu
    apply hne
    intro hs
    apply hu
    have hl := sortByValueDesc_length utxos
    rw [hs] at hl
    exact List.length_eq_zero.mp hl.symm
  · intro j hj1 hjk
    have := hmid j hj1 hjk
    simpa [prefixMeets] using this
  · rcases hfin with hfin | hfin
    · left; simpa [prefixMeets] using hfin
    · right
      refine ⟨by rw [hfin.1, sortByValueDesc_length], ?_⟩
      intro h1
      have := hfin.2 h1
      simpa [prefixMeets] using this
  · intro hpm
    have hcond : ¬ (sumVal ((sortByValueDesc utxos).take k) <
        target + estimateTxSize k (oc + 1) ops * fpb) := by
      unfold prefixMeets feeFor at hpm
      omega
    simp only [selectCoins, hsel, hlen]
    rw [if_neg hcond]
  · intro hpm
    have hcond : sumVal ((sortByValueDesc utxos).take k) <
        target + estimateTxSize k (oc + 1) ops * fpb := by
      unfold prefixMeets feeFor at hpm
      omega
    simp only [selectCoins, hsel, hlen]
    rw [if_pos hcond]
    rfl

/-- C1, counterexample to the claim as stated: with UTXOs of value 772
and 1, target 546, fee rate 1 and one planned output, the sum of all UTXO
values (773) is below `target + estimateTxSize(2, 2) * feePerByte` (920),
yet `selectCoins` does not raise InsufficientFunds: it succeeds with the
772-photon UTXO alone, because that one-element prefix already meets the
fee bound computed at its own length (546 + 226 ≤ 772). -/
theorem selectCoins_claim_counterexample :
    sumVal [cexU1, cexU2] < 546 + estimateTxSize 2 2 [] * 1 ∧
    selectCoins [cexU1, cexU2] 546 1 1 [] = .ok ⟨[cexU1], 772⟩ :=
  ⟨by decide, rfl⟩

/-- C1 (amended): selectCoins raises InsufficientFunds exactly when no
prefix of the value-descending ordering (the full set included) meets
`target + estimateTxSize(k, outputCount+1, opReturnSizes) * feePerByte`
for its own length `k`; otherwise it returns the shortest nonempty prefix
meeting its own bound (the empty selection for an empty UTXO list), with
`totalIn` the sum of the selected values. -/
theorem selectCoins_insufficient_iff_no_prefix (utxos : List RawUTXO)
    (target fpb oc : Nat) (ops : List Nat) :
    ((∃ need avail, selectCoins utxos target fpb oc ops =
        .error (.insufficientFunds need avail)) ↔
      ∀ k, k ≤ utxos.length →
        ¬ prefixMeets (sortByValueDesc utxos) target fpb oc ops k) ∧
    (∀ sel, selectCoins utxos target fpb oc ops = .ok sel →
      sel.totalIn = sumVal sel.selected ∧
      ((utxos = [] ∧ sel.selected = []) ∨
        (∃ k, 1 ≤ k ∧ k ≤ utxos.length ∧
          sel.selected = (sortByValueDesc utxos).take k ∧
          prefixMeets (sortByValueDesc utxos) target fpb oc ops k ∧
          ∀ j, 1 ≤ j → j < k →
            ¬ prefixMeets (sortByValueDesc utxos) target fpb oc ops j))) := by
  obtain ⟨k, hkle, hne, hmid, hdisj, hok, herr⟩ :=
    selectCoins_master utxos target fpb oc ops
  constructor
  · constructor
    · rintro ⟨need, avail, he⟩ j hjle hDj
      have hnotk : ¬ prefixMeets (sortByValueDesc utxos) target fpb oc ops k := by
        intro hDk
        rw [hok hDk] at he
        exact Except.noConfusion he
      by_cases hjk : j = k
      · exact hnotk (hjk ▸ hDj)
      · have hkn : k = utxos.length := by
          rcases hdisj with hDk | hfin
          · exact absurd hDk hnotk
          · exact hfin.1
        have hjlt : j < k := by omega
        rcases Nat.eq_zero_or_pos j with rfl | hj1
        · have hD1 := prefixMeets_zero_one _ _ _ _ _ hDj
          by_cases h1k : 1 = k
          · exact hnotk (h1k ▸ hD1)
          · exact hmid 1 le_rfl (by omega) hD1
        · exact hmid j hj1 hjlt hDj
    · intro hall
      exact ⟨_, _, herr (hall k hkle)⟩
  · intro sel hsel
    have hDk : prefixMeets (sortByValueDesc utxos) target fpb oc ops k := by
      by_contra hnot
      rw [herr hnot] at hsel
      exact Except.noConfusion hsel
    rw [hok hDk] at hsel
    have hseleq : sel = ⟨(sortByValueDesc utxos).take k,
        sumVal ((sortByValueDesc utxos).take k)⟩ := by
      injection hsel with h
      exact h.symm
    subst hseleq
    refine ⟨rfl, ?_⟩
    by_cases hu : utxos = []
    · left
      refine ⟨hu, ?_⟩
      subst hu
      simp [sortByValueDesc]
    · right
      exact ⟨k, hne hu, hkle, rfl, hDk, hmid⟩

theorem selectCoins_ok_shape (utxos : List RawUTXO) (target fpb oc : Nat)
    (ops : List Nat) (sel : CoinSelection)
    (h : selectCoins utxos target fpb oc ops = .ok sel) :
    ∃ k, k ≤ utxos.length ∧ (utxos ≠ [] → 1 ≤ k) ∧
      sel.selected = (sortByValueDesc utxos).take k ∧
      prefixMeets (sortByValueDesc utxos) target fpb oc ops k := by
  obtain ⟨k, hkle, hne, _hmid, _hdisj, hok, herr⟩ :=
    selectCoins_master utxos target fpb oc ops
  have hDk : prefixMeets (sortByValueDesc utxos) target fpb oc ops k := by
    by_contra hnot
    rw [herr hnot] at h
    exact Except.noConfusion h
  rw [hok hDk] at h
  injection h with h
  exact ⟨k, hkle, hne, by rw [← h], hDk⟩

theorem selectCoins_ok_subset (utxos : List RawUTXO) (target fpb oc : Nat)
    (ops : List Nat) (sel : CoinSelection)
    (h : selectCoins utxos target fpb oc ops = .ok sel) :
    ∀ u ∈ sel.selected, u ∈ utxos := by
  obtain ⟨k, _, _, hsel, _⟩ := selectCoins_ok_shape utxos target fpb oc ops sel h
  intro u hu
  rw [hsel] at hu
  have h1 : u ∈ sortByValueDesc utxos := List.take_subset k _ hu
  exact (sortByValueDesc_perm utxos).mem_iff.mp h1

theorem selectCoins_ok_ne_nil (utxos : List RawUTXO) (target fpb oc : Nat)
    (ops : List Nat) (sel : CoinSelection)
    (h : selectCoins utxos target fpb oc ops = .ok sel) (ht : 0 < target) :
    sel.selected ≠ [] := by
  obtain ⟨k, hkle, hne, hsel, hDk⟩ := selectCoins_ok_shape utxos target fpb oc ops sel h
  by_cases hu : utxos = []
  · subst hu
    exfalso
    have hk0 : k = 0 := by simpa using hkle
    subst hk0
    have : target + feeFor oc ops fpb 0 ≤ sumVal [] := by
      simpa [prefixMeets, sortByValueDesc] using hDk
    simp [sumVal] at this
    omega
  · have hk1 : 1 ≤ k := hne hu
    have hulen : 1 ≤ utxos.length := by
      rcases utxos with _ | _
      · exact absurd rfl hu
      · simp
    rw [hsel]
    intro hcon
    have hlen := congrArg List.length hcon
    rw [List.length_take, sortByValueDesc_length] at hlen
    simp only [List.length_nil] at hlen
    rcases Nat.min_eq_zero_iff.mp hlen with h0 | h0 <;> omega

theorem transferTokenInputs_found (allUtxos : List RawUTXO) (refTxid : List Char)
    (refVout : Option Int) (amount fpb : Nat) (tokenUtxo : RawUTXO)
    (hfind : allUtxos.find? (refMatch refTxid refVout) = some tokenUtxo) :
    transferTokenInputs allUtxos refTxid refVout amount fpb =
      if amount + estimateTxSize 2 2 [] * fpb + DUST ≤ tokenUtxo.value
      then .ok [tokenUtxo]
      else
        match selectCoins (allUtxos.filter (fun u => ! refMatch refTxid refVout u))
            (estimateTxSize 2 2 [] * fpb + DUST) fpb 2 [] with
        | .error e => .error e
        | .ok r => .ok (tokenUtxo :: r.selected) := by
  unfold transferTokenInputs
  rw [hfind]

/-- C8: when the token UTXO is located, `transferToken` spends it alone
exactly when its value covers `amount + estimateTxSize(2,2) * feePerByte +
DUST`; in the other case the inputs are the token UTXO followed by a
`selectCoins` pick from the UTXO set with the token UTXO filtered out
(nonempty, none of its members matching the token reference); in every
successful case the token UTXO occurs exactly once among the inputs. -/
theorem transferToken_inputs_spec (allUtxos : List RawUTXO) (refTxid : List Char)
    (refVout : Option Int) (amount fpb : Nat) (tokenUtxo : RawUTXO)
    (hfind : allUtxos.find? (refMatch refTxid refVout) = some tokenUtxo) :
    (transferTokenInputs allUtxos refTxid refVout amount fpb = .ok [tokenUtxo] ↔
      amount + estimateTxSize 2 2 [] * fpb + DUST ≤ tokenUtxo.value) ∧
    (∀ sel, transferTokenInputs allUtxos refTxid refVout amount fpb = .ok sel →
      sel.count tokenUtxo = 1 ∧
      (tokenUtxo.value < amount + estimateTxSize 2 2 [] * fpb + DUST →
        ∃ feeSel tot, sel = tokenUtxo :: feeSel ∧
          selectCoins (allUtxos.filter (fun u => ! refMatch refTxid refVout u))
            (estimateTxSize 2 2 [] * fpb + DUST) fpb 2 [] = .ok ⟨feeSel, tot⟩ ∧
          feeSel ≠ [] ∧
          ∀ u ∈ feeSel, refMatch refTxid refVout u = false)) := by
  have hmatch : refMatch refTxid refVout tokenUtxo = true := List.find?_some hfind
  have heqn := transferTokenInputs_found allUtxos refTxid refVout amount fpb tokenUtxo hfind
  have hcover : ∀ feeSel tot,
      selectCoins (allUtxos.filter (fun u => ! refMatch refTxid refVout u))
        (estimateTxSize 2 2 [] * fpb + DUST) fpb 2 [] = .ok ⟨feeSel, tot⟩ →
      feeSel ≠ [] ∧ ∀ u ∈ feeSel, refMatch refTxid refVout u = false := by
    intro feeSel tot hsc
    constructor
    · have := selectCoins_ok_ne_nil _ _ _ _ _ _ hsc (by unfold DUST; omega)
      simpa using this
    · intro u hu
      have hmem := selectCoins_ok_subset _ _ _ _ _ _ hsc u (by simpa using hu)
      have := (List.mem_filter.mp hmem).2
      simpa using this
  constructor
  · constructor
    · intro hok
      by_contra hnc
      rw [heqn, if_neg hnc] at hok
      rcases hsc : selectCoins (allUtxos.filter (fun u => ! refMatch refTxid refVout u))
          (estimateTxSize 2 2 [] * fpb + DUST) fpb 2 [] with e | r
      · rw [hsc] at hok
        exact Except.noConfusion hok
      · rw [hsc] at hok
        injection hok with hok
        have hsc2 : selectCoins (allUtxos.filter (fun u => ! refMatch refTxid refVout u))
            (estimateTxSize 2 2 [] * fpb + DUST) fpb 2 [] =
            .ok ⟨r.selected, r.totalIn⟩ := hsc
        obtain ⟨hne, _⟩ := hcover r.selected r.totalIn hsc2
        injection hok with _ htail
        exact hne htail
    · intro hge
      rw [heqn, if_pos hge]
  · intro sel hok
    rw [heqn] at hok
    by_cases hge : amount + estimateTxSize 2 2 [] * fpb + DUST ≤ tokenUtxo.value
    · rw [if_pos hge] at hok
      injection hok with hok
      subst hok
      refine ⟨by simp, ?_⟩
      intro hlt
      omega
    · rw [if_neg hge] at hok
      rcases hsc : selectCoins (allUtxos.filter (fun u => ! refMatch refTxid refVout u))
          (estimateTxSize 2 2 [] * fpb + DUST) fpb 2 [] with e | r
      · rw [hsc] at hok
        exact Except.noConfusion hok
      · rw [hsc] at hok
        injection hok with hok
        subst hok
        have hsc2 : selectCoins (allUtxos.filter (fun u => ! refMatch refTxid refVout u))
            (estimateTxSize 2 2 [] * fpb + DUST) fpb 2 [] =
            .ok ⟨r.selected, r.totalIn⟩ := hsc
        obtain ⟨hne, hnomatch⟩ := hcover r.selected r.totalIn hsc2
        have hnotmem : tokenUtxo ∉ r.selected := by
          intro hmem
          have := hnomatch tokenUtxo hmem
          rw [hmatch] at this
          exact Bool.noConfusion this
        constructor
        · rw [List.count_cons_self, List.count_eq_zero.mpr hnotmem]
        · intro _
          exact ⟨r.selected, r.totalIn, rfl, rfl, hne, hnomatch⟩

/-- C8 witness: a 5000-photon UTXO located as the token UTXO for
reference txid "c", vout 1, with transfer amount 100 at 1 photon/byte. -/
theorem transferToken_inputs_spec_witness :
    ([⟨[ 'c' ], 1, 0, 5000⟩] : List RawUTXO).find?
        (refMatch [ 'c' ] (some 1)) = some ⟨[ 'c' ], 1, 0, 5000⟩ ∧
    (transferTokenInputs [⟨[ 'c' ], 1, 0, 5000⟩] [ 'c' ] (some 1) 100 1 =
        .ok [⟨[ 'c' ], 1, 0, 5000⟩] ↔
      100 + estimateTxSize 2 2 [] * 1 + DUST ≤ 5000) :=
  ⟨by decide,
    (transferToken_inputs_spec [⟨[ 'c' ], 1, 0, 5000⟩] [ 'c' ] (some 1) 100 1
      ⟨[ 'c' ], 1, 0, 5000⟩ (by decide)).1⟩

/-- C9: when the indexer's UTXO set contains no UTXO matching the
`(txid, vout)` parsed from the token reference, `transferToken` fails with
TokenUtxoNotFound and the list of broadcast transactions is empty. -/
theorem transferToken_token_not_found (env : TransferEnv) (tokenRef : List Char)
    (amount fpb : Nat) (allUtxos : List RawUTXO)
    (h1 : env.listUnspentResp = .ok allUtxos)
    (h2 : allUtxos.find?
      (refMatch (parseTokenRef tokenRef).1 (parseTokenRef tokenRef).2) = none) :
    transferToken env tokenRef amount fpb = (.error .tokenUtxoNotFound, []) := by
  have hinp : transferTokenInputs allUtxos (parseTokenRef tokenRef).1
      (parseTokenRef tokenRef).2 amount fpb = .error .tokenUtxoNotFound := by
    unfold transferTokenInputs
    rw [h2]
  simp only [transferToken, h1, hinp]

/-- C9 witness: the reference "d_1" is absent from a UTXO set holding only
a UTXO of txid "c". -/
theorem transferToken_token_not_found_witness :
    transferEnvW.listUnspentResp = .ok [⟨[ 'c' ], 1, 0, 5000⟩] ∧
    transferToken transferEnvW [ 'd', '_', '1' ] 1 1 =
      (.error .tokenUtxoNotFound, []) :=
  ⟨rfl, transferToken_token_not_found transferEnvW [ 'd', '_', '1' ] 1 1
    [⟨[ 'c' ], 1, 0, 5000⟩] rfl (by decide)⟩

/-- C2: once the commit phase has completed (first listUnspent nonempty,
commit coin selection succeeded, commit broadcast succeeded), a failure of
any reveal-phase step — the second listUnspent, the reveal coin selection,
or the reveal broadcast — makes `createFungibleToken` return that error
value unchanged, with the commit transaction as the only broadcast ever
performed (no retry, no compensating broadcast, no rollback of the
commit). -/
theorem createFungibleToken_reveal_failure (env : MintEnv) (supply fpb : Nat)
    (us1 : List RawUTXO) (sel1 : CoinSelection) (txid1 : List Char)
    (h1 : env.listUnspent1 = .ok us1) (h2 : us1 ≠ [])
    (h3 : selectCoins us1 DUST fpb 1 [env.commitScriptLen] = .ok sel1)
    (h4 : env.broadcast1 = .ok txid1) :
    (∀ e, env.listUnspent2 = .error e →
      createFungibleToken env supply fpb =
        (.error e, [(env.signCommit sel1.selected).rawTx])) ∧
    (∀ us2, env.listUnspent2 = .ok us2 → us2 ≠ [] →
      ∀ e, selectCoins us2 (max supply DUST) fpb 2 [env.revealScriptLen] = .error e →
        createFungibleToken env supply fpb =
          (.error e, [(env.signCommit sel1.selected).rawTx])) ∧
    (∀ us2 sel2, env.listUnspent2 = .ok us2 → us2 ≠ [] →
      selectCoins us2 (max supply DUST) fpb 2 [env.revealScriptLen] = .ok sel2 →
      ∀ e, env.broadcast2 = .error e →
        createFungibleToken env supply fpb =
          (.error e, [(env.signCommit sel1.selected).rawTx])) := by
  refine ⟨?_, ?_, ?_⟩
  · intro e he
    simp only [createFungibleToken, h1, if_neg h2, h3, h4, he]
  · intro us2 hu2 hne2 e hsc2
    simp only [createFungibleToken, h1, if_neg h2, h3, h4, hu2, if_neg hne2, hsc2]
  · intro us2 sel2 hu2 hne2 hsc2 e hb2
    simp only [createFungibleToken, h1, if_neg h2, h3, h4, hu2, if_neg hne2, hsc2, hb2]

/-- C2 witness: with a 1000-photon UTXO, a successful commit phase and a
collaborator error on the second listUnspent, the mint returns that error
and the single broadcast performed is the commit's raw transaction. -/
theorem createFungibleToken_reveal_failure_witness :
    mintEnvW.listUnspent2 = .error (.network 7) ∧
    createFungibleToken mintEnvW 1000 1 = (.error (.network 7), [ [ 'r' ] ]) :=
  ⟨rfl,
    (createFungibleToken_reveal_failure mintEnvW 1000 1 [⟨[ 'c' ], 0, 0, 1000⟩]
      ⟨[⟨[ 'c' ], 0, 0, 1000⟩], 1000⟩ [ 'x' ] rfl (by decide) rfl rfl).1
      (.network 7) rfl⟩

-- ────────────────────────────────────────────────────────────
-- Elliptic curve invariants and the C4 claim
-- ────────────────────────────────────────────────────────────

theorem Pcurve_int_pos : (0 : Int) < (Pcurve : Int) := by
  norm_num [Pcurve]

theorem refs_ecAdd_x_range (p q : Int × Int)
    (hp : 0 ≤ p.1 ∧ p.1 < (Pcurve : Int)) (hq : 0 ≤ q.1 ∧ q.1 < (Pcurve : Int)) :
    0 ≤ (Refs.ecAdd p q).1 ∧ (Refs.ecAdd p q).1 < (Pcurve : Int) := by
  unfold Refs.ecAdd
  dsimp only
  set s := if p.1 = q.1 ∧ p.2 = q.2
    then ((3 * p.1 * p.1) * Refs.modInv (2 * p.2) (Pcurve : Int)).tmod (Pcurve : Int)
    else ((q.2 - p.2) * Refs.modInv ((q.1 - p.1 + (Pcurve : Int)).tmod (Pcurve : Int))
      (Pcurve : Int)).tmod (Pcurve : Int) with hs
  have hop : 0 ≤ s * s - p.1 - q.1 + 2 * (Pcurve : Int) := by
    have hss : 0 ≤ s * s := mul_self_nonneg s
    omega
  exact ⟨Int.tmod_nonneg _ hop, Int.tmod_lt_of_pos _ Pcurve_int_pos⟩

theorem natAbs_tmod_lt (a b : Int) (hb : b ≠ 0) :
    (a.tmod b).natAbs < b.natAbs := by
  rcases a with m | m <;> rcases b with n | n <;>
    simp_all [Int.tmod, Int.natAbs_ofNat, Int.natAbs_negSucc, Int.natAbs_neg] <;>
    exact Nat.mod_lt _ (by omega)

theorem tmod_bounds (a b : Int) (hb : 0 < b) :
    -b < a.tmod b ∧ a.tmod b < b := by
  have h1 := natAbs_tmod_lt a b (by omega)
  constructor <;> omega

theorem hd_ecAdd_x_range (p q : Int × Int)
    (_hp : 0 ≤ p.1 ∧ p.1 < (Pcurve : Int)) (_hq : 0 ≤ q.1 ∧ q.1 < (Pcurve : Int)) :
    0 ≤ (HD.ecAdd p q).1 ∧ (HD.ecAdd p q).1 < (Pcurve : Int) := by
  unfold HD.ecAdd
  dsimp only
  set s := if p.1 = q.1 ∧ p.2 = q.2
    then ((3 * p.1 * p.1) * HD.modInv (2 * p.2) (Pcurve : Int)).tmod (Pcurve : Int)
    else (((q.2 - p.2 + (Pcurve : Int)).tmod (Pcurve : Int)) *
      HD.modInv ((q.1 - p.1 + (Pcurve : Int)).tmod (Pcurve : Int))
        (Pcurve : Int)).tmod (Pcurve : Int) with hs
  have hb := tmod_bounds (s * s - p.1 - q.1) (Pcurve : Int) Pcurve_int_pos
  have hop : 0 ≤ (s * s - p.1 - q.1).tmod (Pcurve : Int) + (Pcurve : Int) := by omega
  exact ⟨Int.tmod_nonneg _ hop, Int.tmod_lt_of_pos _ Pcurve_int_pos⟩

theorem ecMulGo_x_range (add : Int × Int → Int × Int → Int × Int)
    (hadd : ∀ p q, (0 ≤ p.1 ∧ p.1 < (Pcurve : Int)) →
      (0 ≤ q.1 ∧ q.1 < (Pcurve : Int)) →
      0 ≤ (add p q).1 ∧ (add p q).1 < (Pcurve : Int)) :
    ∀ k (q r : Int × Int) (first : Bool),
      (0 ≤ q.1 ∧ q.1 < (Pcurve : Int)) → (0 ≤ r.1 ∧ r.1 < (Pcurve : Int)) →
      0 ≤ (ecMulGo add k q r first).1 ∧
        (ecMulGo add k q r first).1 < (Pcurve : Int) := by
  intro k
  induction k using Nat.strong_induction_on with
  | _ k ih =>
    match k with
    | 0 =>
      intro q r first hq hr
      simpa [ecMulGo] using hr
    | k + 1 =>
      intro q r first hq hr
      rw [ecMulGo]
      apply ih ((k + 1) / 2) (Nat.div_lt_self (by omega) (by omega))
      · exact hadd q q hq hq
      · dsimp only
        split_ifs
        · exact hq
        · exact hadd r q hr hq
        · exact hr

theorem tmod_two_eq_zero_iff_even (y : Int) : y.tmod 2 = 0 ↔ Even y := by
  rw [even_iff_two_dvd, Int.dvd_iff_tmod_eq_zero]

theorem Pcurve_lt_pow256 : Pcurve < 2 ^ 256 := by
  norm_num [Pcurve]

/-- C4: for a key whose scalar lies in `[1, N)`, `privToPubKey` returns
exactly 33 bytes: a prefix byte that is 2 exactly when the y-coordinate of
the point computed by the double-and-add `ecMul` is even (3 when odd),
followed by 32 bytes that decode big-endian to that point's x-coordinate. -/
theorem privToPubKey_format (priv : List Nat)
    (_h1 : 1 ≤ foldBase 256 priv) (_h2 : foldBase 256 priv < Ncurve) :
    (Refs.privToPubKey priv).length = 33 ∧
    Refs.privToPubKey priv =
      (if (Refs.ecMul (foldBase 256 priv) ((GXc : Int), (GYc : Int))).2.tmod 2 = 0
       then 2 else 3) ::
        hexPadBytes (Refs.ecMul (foldBase 256 priv)
          ((GXc : Int), (GYc : Int))).1.toNat ∧
    (hexPadBytes (Refs.ecMul (foldBase 256 priv)
        ((GXc : Int), (GYc : Int))).1.toNat).length = 32 ∧
    foldBase 256 (hexPadBytes (Refs.ecMul (foldBase 256 priv)
        ((GXc : Int), (GYc : Int))).1.toNat) =
      (Refs.ecMul (foldBase 256 priv) ((GXc : Int), (GYc : Int))).1.toNat ∧
    ((Refs.privToPubKey priv).headD 0 = 2 ↔
      Even (Refs.ecMul (foldBase 256 priv) ((GXc : Int), (GYc : Int))).2) ∧
    ((Refs.privToPubKey priv).headD 0 = 2 ∨ (Refs.privToPubKey priv).headD 0 = 3) := by
  have hG : (0 : Int) ≤ ((GXc : Nat) : Int) ∧ ((GXc : Nat) : Int) < (Pcurve : Int) := by
    constructor
    · positivity
    · norm_num [GXc, Pcurve]
  have hx := ecMulGo_x_range Refs.ecAdd refs_ecAdd_x_range (foldBase 256 priv)
    ((GXc : Int), (GYc : Int)) (0, 0) true hG ⟨le_rfl, Pcurve_int_pos⟩
  have hxlt : (Refs.ecMul (foldBase 256 priv)
      ((GXc : Int), (GYc : Int))).1.toNat < 2 ^ 256 := by
    have hP := Pcurve_lt_pow256
    unfold Refs.ecMul
    omega
  have hlen32 := hexPadBytes_length _ hxlt
  have hfold := hexPadBytes_foldBase _ hxlt
  have heq : Refs.privToPubKey priv =
      (if (Refs.ecMul (foldBase 256 priv) ((GXc : Int), (GYc : Int))).2.tmod 2 = 0
       then 2 else 3) ::
        hexPadBytes (Refs.ecMul (foldBase 256 priv)
          ((GXc : Int), (GYc : Int))).1.toNat := rfl
  refine ⟨?_, heq, hlen32, hfold, ?_, ?_⟩
  · rw [heq]
    simp [hlen32]
  · rw [heq]
    by_cases hpar : (Refs.ecMul (foldBase 256 priv)
        ((GXc : Int), (GYc : Int))).2.tmod 2 = 0
    · simp only [if_pos hpar, List.headD_cons]
      simp [(tmod_two_eq_zero_iff_even _).mp hpar]
    · simp only [if_neg hpar, List.headD_cons]
      constructor
      · omega
      · intro he
        exact absurd ((tmod_two_eq_zero_iff_even _).mpr he) hpar
  · rw [heq]
    by_cases hpar : (Refs.ecMul (foldBase 256 priv)
        ((GXc : Int), (GYc : Int))).2.tmod 2 = 0
    · left; simp [if_pos hpar]
    · right; simp [if_neg hpar]

/-- C4 witness: the scalar 1 (bytes 00...01) is in range. -/
theorem privToPubKey_format_witness :
    1 ≤ foldBase 256 (List.replicate 31 0 ++ [1]) ∧
    foldBase 256 (List.replicate 31 0 ++ [1]) < Ncurve ∧
    (Refs.privToPubKey (List.replicate 31 0 ++ [1])).length = 33 :=
  ⟨by decide, by decide,
    (privToPubKey_format (List.replicate 31 0 ++ [1]) (by decide) (by decide)).1⟩

-- ────────────────────────────────────────────────────────────
-- HD derivation: the C5 and C6 claims
-- ────────────────────────────────────────────────────────────

theorem hd_compressedPubKey_length (priv : List Nat) :
    (HD.compressedPubKey priv).length = 33 := by
  have hG : (0 : Int) ≤ ((GXc : Nat) : Int) ∧ ((GXc : Nat) : Int) < (Pcurve : Int) := by
    constructor
    · positivity
    · norm_num [GXc, Pcurve]
  have hx := ecMulGo_x_range HD.ecAdd hd_ecAdd_x_range (foldBase 256 priv)
    ((GXc : Int), (GYc : Int)) (0, 0) true hG ⟨le_rfl, Pcurve_int_pos⟩
  have hxlt : (HD.ecMul (foldBase 256 priv) ((GXc : Int), (GYc : Int))).1.toNat < 2 ^ 256 := by
    have hP := Pcurve_lt_pow256
    unfold HD.ecMul
    omega
  unfold HD.compressedPubKey
  simp [hexPadBytes_length _ hxlt]

theorem Ncurve_lt_pow256 : Ncurve < 2 ^ 256 := by
  norm_num [Ncurve]

theorem Ncurve_pos : 0 < Ncurve := by
  norm_num [Ncurve]

theorem deriveChild_eq (hmac : List Nat → List Nat → List Nat) (parent : HDKey)
    (index : Nat) (hidx : index < 2 ^ 32) :
    HD.deriveChild hmac parent (index : Int) =
      (if Ncurve ≤ foldBase 256 ((hmac parent.chainCode (HD.childData parent index)).take 32) ∨
          (foldBase 256 ((hmac parent.chainCode (HD.childData parent index)).take 32) +
            foldBase 256 parent.privateKey) % Ncurve = 0
       then .error .invalidKey
       else .ok ⟨hexPadBytes
          ((foldBase 256 ((hmac parent.chainCode (HD.childData parent index)).take 32) +
            foldBase 256 parent.privateKey) % Ncurve),
          (hmac parent.chainCode (HD.childData parent index)).drop 32⟩) := by
  unfold HD.deriveChild
  rw [if_neg (by push_cast; omega)]
  simp

/-- C5: for a 32-byte parent key and an in-range index, the HMAC message
of `deriveChild` is `0x00 ‖ parentPrivateKey ‖ index` exactly when
`index ≥ 2^31` and `compressedPubKey(parentPrivateKey) ‖ index` otherwise;
the derivation fails with InvalidKey exactly when `HMAC_left ≥ N` or
`(HMAC_left + parent) mod N = 0`; and a returned child's 32-byte private
key decodes to `(HMAC_left + parent) mod N`, its chain code being the
right HMAC half. -/
theorem deriveChild_spec (hmac : List Nat → List Nat → List Nat)
    (parent : HDKey) (index : Nat)
    (hp : parent.privateKey.length = 32) (hidx : index < 2 ^ 32) :
    HD.childData parent index =
      (if 2 ^ 31 ≤ index
       then 0 :: parent.privateKey ++ u32be index
       else HD.compressedPubKey parent.privateKey ++ u32be index) ∧
    (HD.deriveChild hmac parent (index : Int) = .error .invalidKey ↔
      (Ncurve ≤ foldBase 256 ((hmac parent.chainCode (HD.childData parent index)).take 32) ∨
       (foldBase 256 ((hmac parent.chainCode (HD.childData parent index)).take 32) +
         foldBase 256 parent.privateKey) % Ncurve = 0)) ∧
    (∀ child, HD.deriveChild hmac parent (index : Int) = .ok child →
      foldBase 256 child.privateKey =
        (foldBase 256 ((hmac parent.chainCode (HD.childData parent index)).take 32) +
          foldBase 256 parent.privateKey) % Ncurve ∧
      child.privateKey.length = 32 ∧
      child.chainCode = (hmac parent.chainCode (HD.childData parent index)).drop 32) := by
  have hkc : (foldBase 256 ((hmac parent.chainCode (HD.childData parent index)).take 32) +
      foldBase 256 parent.privateKey) % Ncurve < 2 ^ 256 := by
    have h1 := Nat.mod_lt (foldBase 256 ((hmac parent.chainCode
      (HD.childData parent index)).take 32) + foldBase 256 parent.privateKey) Ncurve_pos
    have h2 := Ncurve_lt_pow256
    omega
  refine ⟨?_, ?_, ?_⟩
  · unfold HD.childData
    by_cases hh : 2 ^ 31 ≤ index
    · rw [if_pos hh, if_pos hh]
      have ht : parent.privateKey.take 32 = parent.privateKey := by
        conv_lhs => rw [← hp]
        exact List.take_length parent.privateKey
      rw [hp, ht]
      simp
    · rw [if_neg hh, if_neg hh]
      dsimp only
      have hl := hd_compressedPubKey_length parent.privateKey
      have ht : (HD.compressedPubKey parent.privateKey).take 33 =
          HD.compressedPubKey parent.privateKey := by
        conv_lhs => rw [← hl]
        exact List.take_length (HD.compressedPubKey parent.privateKey)
      rw [hl, ht]
      simp
  · rw [deriveChild_eq hmac parent index hidx]
    by_cases hc : Ncurve ≤ foldBase 256 ((hmac parent.chainCode
        (HD.childData parent index)).take 32) ∨
        (foldBase 256 ((hmac parent.chainCode (HD.childData parent index)).take 32) +
          foldBase 256 parent.privateKey) % Ncurve = 0
    · simp [if_pos hc, hc]
    · simp [if_neg hc, hc]
  · intro child hok
    rw [deriveChild_eq hmac parent index hidx] at hok
    by_cases hc : Ncurve ≤ foldBase 256 ((hmac parent.chainCode
        (HD.childData parent index)).take 32) ∨
        (foldBase 256 ((hmac parent.chainCode (HD.childData parent index)).take 32) +
          foldBase 256 parent.privateKey) % Ncurve = 0
    · rw [if_pos hc] at hok
      exact Except.noConfusion hok
    · rw [if_neg hc] at hok
      injection hok with hok
      subst hok
      exact ⟨hexPadBytes_foldBase _ hkc, hexPadBytes_length _ hkc, rfl⟩

/-- C5 witness: a 32-byte parent key (scalar 1), zero chain code, index 0. -/
theorem deriveChild_spec_witness :
    (List.replicate 31 0 ++ [1] : List Nat).length = 32 ∧
    HD.childData ⟨List.replicate 31 0 ++ [1], List.replicate 32 0⟩ 0 =
      (if 2 ^ 31 ≤ 0
       then 0 :: (List.replicate 31 0 ++ [1]) ++ u32be 0
       else HD.compressedPubKey (List.replicate 31 0 ++ [1]) ++ u32be 0) :=
  ⟨by decide,
    (deriveChild_spec hmacMock ⟨List.replicate 31 0 ++ [1], List.replicate 32 0⟩ 0
      (by decide) (by decide)).1⟩

theorem derivePathGo_ok_parses (hmac : List Nat → List Nat → List Nat) :
    ∀ (parts : List (List Char)) (key k : HDKey),
      HD.derivePathGo hmac parts key = .ok k →
      ∀ part ∈ parts, parseIntJS (HD.stripHardened part).2 ≠ none := by
  intro parts
  induction parts with
  | nil =>
    intro key k _ part hmem
    simp at hmem
  | cons p rest ih =>
    intro key k hok part hmem
    rw [HD.derivePathGo] at hok
    split at hok
    · exact Except.noConfusion hok
    · rename_i idx hpi
      split at hok
      · exact Except.noConfusion hok
      · rename_i key2 _hdc
        rcases List.mem_cons.mp hmem with rfl | hmem2
        · rw [hpi]
          simp
        · exact ih key2 k hok part hmem2

/-- C6 (amended): derivePath fails with InvalidDerivationPath whenever the
path does not start with segment "m"; and whenever it returns a derived
key, the path started with "m" and every further segment (after stripping
one trailing apostrophe) had a parseInt-parsable integer prefix. The
spec's stricter digit-run grammar is not what the code enforces (see the
counterexample: a segment with trailing garbage after the digits is
accepted). -/
theorem derivePath_malformed (hmac : List Nat → List Nat → List Nat)
    (seed : List Nat) (path : List Char) :
    ((splitOnChar '/' path).headD [] ≠ [ 'm' ] →
      HD.derivePath hmac seed path = .error .invalidPath) ∧
    (∀ key, HD.derivePath hmac seed path = .ok key →
      (splitOnChar '/' path).headD [] = [ 'm' ] ∧
      ∀ part ∈ (splitOnChar '/' path).drop 1,
        parseIntJS (HD.stripHardened part).2 ≠ none) := by
  constructor
  · intro hm
    unfold HD.derivePath
    rw [if_pos hm]
  · intro key hok
    unfold HD.derivePath at hok
    by_cases hm : (splitOnChar '/' path).headD [] = [ 'm' ]
    · refine ⟨hm, ?_⟩
      rw [if_neg (fun hcon => hcon hm)] at hok
      split at hok
      · exact Except.noConfusion hok
      · rename_i key0 _hmk
        split at hok
        · exact Except.noConfusion hok
        · rename_i kk hgo
          exact derivePathGo_ok_parses hmac _ key0 kk hgo
    · rw [if_pos hm] at hok
      exact Except.noConfusion hok

/-- C6, counterexample to the claim as stated: the path `m/1x'` is
malformed under the grammar `"m" ("/" digits ["'"])*`, yet derivePath does
not fail: `parseInt` accepts the segment as hardened index 1 (parsing the
digit prefix and ignoring the trailing garbage) and a derived key is
returned. -/
theorem derivePath_grammar_counterexample :
    specPathValid badPath = false ∧
    HD.derivePath hmacMock (List.replicate 64 0) badPath =
      .ok (List.replicate 31 0 ++ [2]) :=
  ⟨rfl, rfl⟩

/-- C6 witness: a path whose first segment is not "m" is rejected, and on
the accepted path "m" the parsed segments (there are none) all satisfy the
parse condition. -/
theorem derivePath_malformed_witness :
    (splitOnChar '/' [ 'x' ]).headD [] ≠ [ 'm' ] ∧
    HD.derivePath hmacMock (List.replicate 64 0) [ 'x' ] = .error .invalidPath :=
  ⟨by decide,
    (derivePath_malformed hmacMock (List.replicate 64 0) [ 'x' ]).1 (by decide)⟩

-- ────────────────────────────────────────────────────────────
-- Base58Check round trip and the WIF claims (C3, C10)
-- ────────────────────────────────────────────────────────────

theorem b58Index_b58Char : ∀ d, d < 58 → b58Index (b58Char d) = some d := by
  decide

theorem b58Char_ne_one : ∀ d, 1 ≤ d → d < 58 → b58Char d ≠ '1' := by
  decide

theorem b58_foldlM_map (ds : List Nat) (hds : ∀ d ∈ ds, d < 58) :
    ∀ a : Nat, (ds.map b58Char).foldlM
      (fun num c => (b58Index c).map (fun i => num * 58 + i)) a =
      some (ds.foldl (fun x d => x * 58 + d) a) := by
  induction ds with
  | nil => intro a; simp
  | cons d t ih =>
    intro a
    have hd : d < 58 := hds d (by simp)
    rw [List.map_cons, List.foldlM_cons, b58Index_b58Char d hd]
    simp only [Option.map_some, Option.bind_eq_bind, Option.some_bind]
    exact ih (fun x hx => hds x (by simp [hx])) (a * 58 + d)

theorem digitsBE_head_bounds (b n : Nat) (hb : 2 ≤ b) (hn : n ≠ 0) :
    ∃ d t, digitsBE b n = d :: t ∧ 1 ≤ d ∧ d < b := by
  rw [digitsBE_eq _ _ hb]
  have hne : Nat.digits b n ≠ [] := Nat.digits_ne_nil_iff_ne_zero.mpr hn
  have hlast := Nat.getLast_digit_ne_zero b hn
  have hh : (Nat.digits b n).reverse.head? =
      some ((Nat.digits b n).getLast hne) := by
    rw [List.head?_reverse, List.getLast?_eq_getLast _ hne]
  rcases hrev : (Nat.digits b n).reverse with _ | ⟨d, t⟩
  · rw [hrev] at hh
    exact Option.noConfusion hh
  · rw [hrev] at hh
    have hd : d = (Nat.digits b n).getLast hne := by
      simpa using hh
    refine ⟨d, t, rfl, ?_, ?_⟩
    · have : d ≠ 0 := by rw [hd]; exact hlast
      omega
    · apply Nat.digits_lt_base (by omega)
      rw [hd]
      exact List.getLast_mem hne

theorem b58decode_b58encode (buf : List Nat) (hne : buf ≠ [])
    (hh : buf.headD 0 ≠ 0) (hb : ∀ x ∈ buf, x < 256) :
    b58decode (b58encode buf) = .ok buf := by
  rcases buf with _ | ⟨b0, bt⟩
  · exact absurd rfl hne
  · have hb0 : b0 ≠ 0 := by simpa using hh
    have hnum : 0 < foldBase 256 (b0 :: bt) := by
      rw [foldBase_cons]
      have h1 : 1 ≤ b0 := by omega
      have h2 : 1 ≤ 256 ^ bt.length := Nat.one_le_pow _ _ (by omega)
      calc 0 < b0 * 256 ^ bt.length := by positivity
        _ ≤ b0 * 256 ^ bt.length + foldBase 256 bt := by omega
    have hzeros : (b0 :: bt).takeWhile (fun x => x = 0) = [] := by
      rw [List.takeWhile_cons]
      simp [hb0]
    obtain ⟨d, t, hdig, hd1, hd58⟩ :=
      digitsBE_head_bounds 58 (foldBase 256 (b0 :: bt)) (by omega) (by omega)
    unfold b58encode
    rw [hzeros]
    simp only [List.length_nil, List.replicate_zero, List.nil_append]
    unfold b58decode
    rw [b58_foldlM_map _ (digitsBE_lt_base 58 _ (by omega)) 0]
    have hfold : (digitsBE 58 (foldBase 256 (b0 :: bt))).foldl
        (fun x d => x * 58 + d) 0 = foldBase 256 (b0 :: bt) :=
      foldBase_digitsBE 58 _ (by omega)
    rw [hfold]
    have hones : ((digitsBE 58 (foldBase 256 (b0 :: bt))).map b58Char).takeWhile
        (fun c => c = '1') = [] := by
      rw [hdig, List.map_cons, List.takeWhile_cons]
      simp [b58Char_ne_one d hd1 hd58]
    rw [hones]
    simp only [List.length_nil, List.replicate_zero, List.nil_append]
    rw [if_neg (by omega)]
    rw [digitsBE_foldBase 256 (b0 :: bt) (by omega) hb (by simpa using hb0)]

theorem getD_append_cons (l1 : List Nat) (a : Nat) (t : List Nat) (d : Nat) :
    (l1 ++ a :: t).getD l1.length d = a := by
  induction l1 with
  | nil => simp
  | cons x xs ih => simpa using ih

theorem fromWIF_b58check (sha256d : List Nat → List Nat)
    (hsha : ∀ x, (sha256d x).length = 32)
    (hshab : ∀ x, ∀ b ∈ sha256d x, b < 256)
    (ver : Nat) (hver0 : ver ≠ 0) (hver256 : ver < 256)
    (priv : List Nat) (h32 : priv.length = 32) (hb : ∀ x ∈ priv, x < 256)
    (hkpos : 0 < foldBase 256 priv) (hklt : foldBase 256 priv < Ncurve) :
    fromWIF sha256d (b58check sha256d ver (priv ++ [1])) =
      .ok ⟨priv, if ver = 0x80 then Network.mainnet else Network.testnet⟩ := by
  set vp := ver :: (priv ++ [1]) with hvp
  set chk := (sha256d vp).take 4 with hchk
  set enc := vp ++ chk with henc
  have hvp_len : vp.length = 34 := by simp [hvp, h32]
  have hchk_len : chk.length = 4 := by
    rw [hchk, List.length_take, hsha]
    decide
  have hlen : enc.length = 38 := by
    rw [henc, List.length_append, hvp_len, hchk_len]
  have hdec : b58decode (b58encode enc) = .ok enc := by
    apply b58decode_b58encode
    · simp [henc, hvp]
    · simp [henc, hvp]
      omega
    · intro x hx
      rw [henc] at hx
      rcases List.mem_append.mp hx with hx | hx
      · rw [hvp] at hx
        rcases List.mem_cons.mp hx with rfl | hx
        · omega
        · rcases List.mem_append.mp hx with hx | hx
          · exact hb x hx
          · simp at hx
            omega
      · exact hshab vp x (List.take_subset 4 _ hx)
  have hpayload : wifPayload enc = vp := by
    unfold wifPayload jsSubarray jsIdx
    rw [hlen]
    norm_num
    rw [show Int.toNat 34 = 34 from rfl, henc, ← hvp_len, List.take_left]
  have hchecksum : wifChecksum enc = chk := by
    unfold wifChecksum jsSubarray jsIdx
    rw [hlen]
    norm_num
    rw [show Int.toNat 34 = 34 from rfl, show Int.toNat 38 = 38 from rfl]
    rw [← hlen, List.take_length, henc, ← hvp_len, List.drop_left]
  have hflag : enc.getD 33 0 = 1 := by
    rw [henc, hvp]
    have h33 : (33 : Nat) = (ver :: priv).length := by simp [h32]
    have hassoc : (ver :: (priv ++ [1])) ++ chk = (ver :: priv) ++ 1 :: chk := by
      simp
    rw [hassoc, h33, getD_append_cons]
  have hkeybytes : wifKeyBytes enc = priv := by
    unfold wifKeyBytes
    rw [hlen]
    rw [if_pos ⟨by omega, hflag⟩]
    unfold jsSubarray jsIdx
    rw [hlen]
    norm_num
    rw [henc, List.take_append_of_le_length (by rw [hvp_len]; omega), hvp]
    rw [show Int.toNat 33 = 33 from rfl]
    rw [show (33 : Nat) = 32 + 1 from rfl, List.take_succ_cons, List.tail_cons]
    rw [← h32, List.take_left]
  have hver_getD : enc.getD 0 0 = ver := by
    rw [henc, hvp]
    simp
  unfold fromWIF
  have hbc : b58check sha256d ver (priv ++ [1]) = b58encode enc := by
    rw [henc, hvp, hchk]
    rfl
  rw [hbc, hdec]
  show (if (sha256d (wifPayload enc)).take 4 ≠ wifChecksum enc
    then Except.error Err.invalidChecksum
    else mkWallet (wifKeyBytes enc)
      (if enc.getD 0 0 = 0x80 then Network.mainnet else Network.testnet)) = _
  have hcond : ¬ ((sha256d (wifPayload enc)).take 4 ≠ wifChecksum enc) := by
    rw [hpayload, hchecksum, hchk]
    simp
  rw [if_neg hcond, hver_getD, hkeybytes]
  unfold mkWallet
  rw [if_neg (by omega)]

/-- C3: WIF round-trip. For any wallet whose stored key is a 32-byte
buffer encoding a scalar in `[1, N)` (exactly what `AgentWallet.create`
produces), `fromWIF (getWIF w)` reconstructs a wallet equal to `w`
(same private key and network), and therefore the reconstructed wallet's
constructor-computed `address` equals `w.address`. -/
theorem fromWIF_getWIF (sha256d hash160 : List Nat → List Nat)
    (hsha : ∀ x, (sha256d x).length = 32)
    (hshab : ∀ x, ∀ b ∈ sha256d x, b < 256)
    (w : AgentWallet) (h32 : w.privKey.length = 32)
    (hb : ∀ x ∈ w.privKey, x < 256)
    (hkpos : 0 < foldBase 256 w.privKey)
    (hklt : foldBase 256 w.privKey < Ncurve) :
    fromWIF sha256d (getWIF sha256d w) = .ok w ∧
    Except.map (walletAddress sha256d hash160)
        (fromWIF sha256d (getWIF sha256d w))
      = .ok (walletAddress sha256d hash160 w) := by
  have hmain : fromWIF sha256d (getWIF sha256d w) = .ok w := by
    unfold getWIF
    rcases w with ⟨priv, net⟩
    cases net
    · rw [if_pos rfl]
      rw [fromWIF_b58check sha256d hsha hshab 0x80 (by decide) (by decide)
        priv h32 hb hkpos hklt]
      rw [if_pos rfl]
    · dsimp only
      rw [if_neg (show ¬ Network.testnet = Network.mainnet by decide)]
      rw [fromWIF_b58check sha256d hsha hshab 0xef (by decide) (by decide)
        priv h32 hb hkpos hklt]
      rw [if_neg (by decide)]
  exact ⟨hmain, by rw [hmain]; rfl⟩

theorem fromWIF_getWIF_witness :
    fromWIF shaZero
        (getWIF shaZero ⟨List.replicate 31 0 ++ [1], Network.mainnet⟩)
      = .ok ⟨List.replicate 31 0 ++ [1], Network.mainnet⟩ ∧
    Except.map (walletAddress shaZero shaZero)
        (fromWIF shaZero
          (getWIF shaZero ⟨List.replicate 31 0 ++ [1], Network.mainnet⟩))
      = .ok (walletAddress shaZero shaZero
          ⟨List.replicate 31 0 ++ [1], Network.mainnet⟩) :=
  fromWIF_getWIF shaZero shaZero (fun _ => rfl)
    (fun _ b hb => by
      have := List.eq_of_mem_replicate hb
      omega)
    ⟨List.replicate 31 0 ++ [1], Network.mainnet⟩
    (by decide) (by decide) (by decide) (by decide)

/-- `b58decode` has a single error value: any failure is `BadBase58`
(an unmapped character). -/
theorem b58decode_error_eq (s : List Char) (e : Err)
    (h : b58decode s = .error e) : e = Err.badBase58 := by
  unfold b58decode at h
  split at h
  · injection h with h
    exact h.symm
  · simp at h

/-- C10 counterexample: the 9-character Base58Check string for bytes
`80 00 00 00 00 00` has a valid checksum (under the degenerate all-zero
double-SHA-256, which this decoded buffer's checksum bytes match), yet
`fromWIF` rejects it with `InvalidKey` because the carried scalar is 0 —
so `fromWIF` does not accept every checksum-valid string. -/
theorem fromWIF_accepts_counterexample :
    b58decode cexWifZeroKey = .ok [0x80, 0, 0, 0, 0, 0] ∧
    (shaZero (wifPayload [0x80, 0, 0, 0, 0, 0])).take 4
      = wifChecksum [0x80, 0, 0, 0, 0, 0] ∧
    fromWIF shaZero cexWifZeroKey = .error Err.invalidKey :=
  ⟨rfl, rfl, rfl⟩

/-- C10: for a checksum-valid decoded buffer whose carried scalar lies in
`[1, N)`, `fromWIF` succeeds and picks the network solely from the
version byte — `0x80` gives mainnet, every other byte gives testnet —
and `fromWIF` never returns an unsupported-version error on any input. -/
theorem fromWIF_version_network (sha256d : List Nat → List Nat)
    (s : List Char) (d : List Nat)
    (hdec : b58decode s = .ok d)
    (hchk : (sha256d (wifPayload d)).take 4 = wifChecksum d)
    (hkpos : 0 < foldBase 256 (wifKeyBytes d))
    (hklt : foldBase 256 (wifKeyBytes d) < Ncurve) :
    fromWIF sha256d s =
      .ok ⟨wifKeyBytes d,
        if d.getD 0 0 = 0x80 then Network.mainnet else Network.testnet⟩ ∧
    ∀ t : List Char, fromWIF sha256d t ≠ .error Err.unsupportedVersion := by
  constructor
  · unfold fromWIF
    rw [hdec]
    show (if (sha256d (wifPayload d)).take 4 ≠ wifChecksum d
      then Except.error Err.invalidChecksum
      else mkWallet (wifKeyBytes d)
        (if d.getD 0 0 = 0x80 then Network.mainnet else Network.testnet)) = _
    rw [if_neg (not_ne_iff.mpr hchk)]
    unfold mkWallet
    rw [if_neg (by omega)]
  · intro t hcontra
    unfold fromWIF at hcontra
    split at hcontra
    · rename_i e heq
      have hbb := b58decode_error_eq t e heq
      subst hbb
      simp at hcontra
    · rename_i dec heq
      split at hcontra
      · simp at hcontra
      · simp only [mkWallet] at hcontra
        split at hcontra
        · simp at hcontra
        · simp at hcontra

theorem fromWIF_version_network_witness :
    fromWIF shaZero witWifSeven =
      .ok ⟨wifKeyBytes [0x80, 7, 0, 0, 0, 0],
        if ([0x80, 7, 0, 0, 0, 0] : List Nat).getD 0 0 = 0x80
        then Network.mainnet else Network.testnet⟩ ∧
    ∀ t : List Char, fromWIF shaZero t ≠ .error Err.unsupportedVersion :=
  fromWIF_version_network shaZero witWifSeven [0x80, 7, 0, 0, 0, 0]
    rfl rfl (by decide) (by decide)

/-- Unfolding `chunksOf` on a nonempty list. -/
theorem chunksOf_eq_cons {α : Type} (k : Nat) (hk : k ≠ 0) (a : α) (t : List α) :
    chunksOf k (a :: t) = (a :: t).take k :: chunksOf k ((a :: t).drop k) := by
  rw [chunksOf]
  exact dif_neg hk

/-- When `k` divides the length, `chunksOf k` yields `length / k` chunks of
size exactly `k` that flatten back to the original list. -/
theorem chunksOf_exact {α : Type} (k : Nat) (hk : 0 < k) :
    ∀ (m : Nat) (l : List α), l.length = m * k →
    (chunksOf k l).length = m ∧ (∀ c ∈ chunksOf k l, c.length = k) ∧
    (chunksOf k l).flatMap id = l := by
  intro m
  induction m with
  | zero =>
    intro l hl
    have hnil : l = [] := List.eq_nil_of_length_eq_zero (by simpa using hl)
    subst hnil
    refine ⟨?_, ?_, ?_⟩ <;> simp [chunksOf]
  | succ m ih =>
    intro l hl
    rw [Nat.succ_mul] at hl
    obtain ⟨a, t, rfl⟩ : ∃ a t, l = a :: t := by
      cases l with
      | nil => simp at hl; omega
      | cons a t => exact ⟨_, _, rfl⟩
    simp only [List.length_cons] at hl
    rw [chunksOf_eq_cons k (by omega)]
    have hdlen : ((a :: t).drop k).length = m * k := by
      simp only [List.length_drop, List.length_cons]
      omega
    obtain ⟨h1, h2, h3⟩ := ih _ hdlen
    refine ⟨by simp [h1], ?_, ?_⟩
    · intro c hc
      rcases List.mem_cons.mp hc with rfl | hc
      · simp only [List.length_take, List.length_cons]
        omega
      · exact h2 c hc
    · simp only [List.flatMap_cons, id]
      rw [h3]
      exact List.take_append_drop k (a :: t)

/-- `chunksOf k` undoes a `flatMap` whose pieces all have size `k`. -/
theorem chunksOf_flatMap {α β : Type} (k : Nat) (hk : 0 < k)
    (f : α → List β) (hf : ∀ a, (f a).length = k) :
    ∀ l : List α, chunksOf k (l.flatMap f) = l.map f := by
  intro l
  induction l with
  | nil => simp [chunksOf]
  | cons a t ih =>
    rw [List.flatMap_cons]
    obtain ⟨b, fb, hb⟩ : ∃ b fb, f a = b :: fb := by
      cases hfa : f a with
      | nil =>
        have := hf a
        rw [hfa] at this
        simp at this
        omega
      | cons b fb => exact ⟨_, _, rfl⟩
    rw [hb, List.cons_append, chunksOf_eq_cons k (by omega)]
    rw [← List.cons_append, ← hb]
    rw [List.take_left' (hf a), List.drop_left' (hf a), ih, List.map_cons]

/-- On a duplicate-free list, `findIdx?` matching entry `i` by `==` finds
exactly index `i`. -/
theorem findIdx_nodup_self {α : Type} [BEq α] [LawfulBEq α] (l : List α)
    (hnd : l.Nodup) :
    ∀ (i : Nat) (h : i < l.length),
      l.findIdx? (fun x => x == l.get ⟨i, h⟩) = some i := by
  induction l with
  | nil => intro i h; simp at h
  | cons a t ih =>
    intro i h
    obtain ⟨hna, hnd2⟩ := List.nodup_cons.mp hnd
    cases i with
    | zero => simp [List.findIdx?_cons]
    | succ i =>
      have hget : (a :: t).get ⟨i + 1, h⟩ = t.get ⟨i, by simpa using h⟩ := rfl
      rw [List.findIdx?_cons, hget]
      have hne : ¬ ((a == t.get ⟨i, by simpa using h⟩) = true) := by
        simp only [beq_iff_eq]
        intro hcon
        exact hna (hcon ▸ List.get_mem t i _)
      rw [if_neg hne, List.findIdx?_succ, ih hnd2 i _]
      rfl

/-- `mapM` over a mapped list where the monadic step always succeeds. -/
theorem mapM_map_some {α β γ : Type} (F : α → β) (G : α → γ)
    (f : β → Option γ) :
    ∀ l : List α, (∀ a ∈ l, f (F a) = some (G a)) →
    (l.map F).mapM f = some (l.map G) := by
  intro l
  induction l with
  | nil => intro _; rfl
  | cons a t ih =>
    intro h
    rw [List.map_cons, List.mapM_cons, h a (by simp),
      ih (fun x hx => h x (by simp [hx]))]
    rfl

/-- Lowercase ASCII letters are not JS whitespace. -/
theorem charNoWs : ∀ k < 26, isJsWs (Char.ofNat (97 + k)) = false := by decide

/-- Lowercase ASCII letters are fixed by `Char.toLower`. -/
theorem charLower :
    ∀ k < 26, Char.toLower (Char.ofNat (97 + k)) = Char.ofNat (97 + k) := by
  decide

/-- The 26 lowercase ASCII letters are pairwise distinct. -/
theorem charInj :
    ∀ a < 26, ∀ b < 26, Char.ofNat (97 + a) = Char.ofNat (97 + b) → a = b := by
  decide

/-- Every character of a mock word is a lowercase letter. -/
theorem mkMockWord_mem (i : Nat) (hi : i < 17576) (c : Char)
    (hc : c ∈ mkMockWord i) : ∃ k, k < 26 ∧ c = Char.ofNat (97 + k) := by
  simp [mkMockWord] at hc
  rcases hc with rfl | rfl | rfl
  · exact ⟨i / 676, by omega, rfl⟩
  · exact ⟨i / 26 % 26, by omega, rfl⟩
  · exact ⟨i % 26, by omega, rfl⟩

/-- Mock words are nonempty. -/
theorem mkMockWord_ne_nil (i : Nat) : mkMockWord i ≠ [] := by simp [mkMockWord]

/-- Mock words contain no whitespace. -/
theorem mkMockWord_noWs (i : Nat) (hi : i < 17576) :
    ∀ c ∈ mkMockWord i, ¬ isJsWs c := by
  intro c hc
  obtain ⟨k, hk, rfl⟩ := mkMockWord_mem i hi c hc
  simp [charNoWs k hk]

/-- Mock words are already lowercase. -/
theorem mkMockWord_lower (i : Nat) (hi : i < 17576) :
    (mkMockWord i).map Char.toLower = mkMockWord i := by
  simp only [mkMockWord, List.map_cons, List.map_nil]
  rw [charLower _ (by omega), charLower _ (by omega), charLower _ (by omega)]

/-- Mock words are pairwise distinct below the three-letter capacity. -/
theorem mkMockWord_inj (i j : Nat) (hi : i < 17576) (hj : j < 17576)
    (h : mkMockWord i = mkMockWord j) : i = j := by
  simp only [mkMockWord, List.cons.injEq, and_true] at h
  obtain ⟨h1, h2, h3⟩ := h
  have e1 := charInj _ (by omega) _ (by omega) h1
  have e2 := charInj _ (by omega) _ (by omega) h2
  have e3 := charInj _ (by omega) _ (by omega) h3
  omega

/-- The mock wordlist has 2048 entries. -/
theorem wlMock_length : wlMock.length = 2048 := by simp [wlMock]

/-- Indexing the mock wordlist. -/
theorem wlMock_getD (i : Nat) (hi : i < 2048) :
    wlMock.getD i [] = mkMockWord i := by
  simp [wlMock, List.getD_eq_getElem?_getD, hi]

/-- `get` view of indexing the mock wordlist. -/
theorem wlMock_get (i : Nat) (h : i < wlMock.length) :
    wlMock.get ⟨i, h⟩ = mkMockWord i := by
  simp [wlMock]

/-- The mock wordlist is duplicate-free. -/
theorem wlMock_nodup : wlMock.Nodup := by
  refine List.Nodup.map_on ?_ (List.nodup_range 2048)
  intro x hx y hy hxy
  exact mkMockWord_inj x y (by have := List.mem_range.mp hx; omega)
    (by have := List.mem_range.mp hy; omega) hxy

/-- List membership of mock words. -/
theorem wlMock_mem (i : Nat) (hi : i < 2048) : mkMockWord i ∈ wlMock := by
  simp only [wlMock, List.mem_map]
  exact ⟨i, List.mem_range.mpr hi, rfl⟩

/-- Reverse lookup of a mock word finds its own index. -/
theorem wlMock_findIdx (i : Nat) (hi : i < 2048) :
    wlMock.findIdx? (fun x => x == mkMockWord i) = some i := by
  have h : i < wlMock.length := by rw [wlMock_length]; omega
  have hfi := findIdx_nodup_self wlMock wlMock_nodup i h
  rwa [wlMock_get i h] at hfi

/-- `dropWhile` keeps a list whose head fails the predicate. -/
theorem dropWhile_cons_neg {α : Type} (p : α → Bool) (c : α) (t : List α)
    (h : ¬ p c) : List.dropWhile p (c :: t) = c :: t := by
  simp [List.dropWhile_cons, h]

/-- `takeWhile` passes over a prefix on which the predicate holds. -/
theorem takeWhile_append_pos {α : Type} (p : α → Bool) (t r : List α)
    (h : ∀ x ∈ t, p x) : (t ++ r).takeWhile p = t ++ r.takeWhile p := by
  induction t with
  | nil => simp
  | cons a t2 ih =>
    rw [List.cons_append, List.takeWhile_cons, if_pos (h a (by simp)),
      ih (fun x hx => h x (by simp [hx]))]
    rfl

/-- `dropWhile` removes a prefix on which the predicate holds. -/
theorem dropWhile_append_pos {α : Type} (p : α → Bool) (t r : List α)
    (h : ∀ x ∈ t, p x) : (t ++ r).dropWhile p = r.dropWhile p := by
  induction t with
  | nil => simp
  | cons a t2 ih =>
    rw [List.cons_append, List.dropWhile_cons, if_pos (h a (by simp))]
    exact ih (fun x hx => h x (by simp [hx]))

/-- `trimJs` is the identity when the first and last characters are not
whitespace. -/
theorem trimJs_eq_self (l : List Char) (c : Char) (t : List Char)
    (hl : l = c :: t) (hc : isJsWs c = false) (d : Char) (r : List Char)
    (hr : l.reverse = d :: r) (hd : isJsWs d = false) : trimJs l = l := by
  unfold trimJs
  rw [hl, dropWhile_cons_neg _ _ _ (by simp [hc]), ← hl, hr,
    dropWhile_cons_neg _ _ _ (by simp [hd]), ← hr, List.reverse_reverse]

/-- Closed form of `joinWords` on a concat-decomposed word list. -/
theorem joinWords_concat (u : List Char) (us : List (List Char))
    (w : List Char) :
    joinWords ((u :: us) ++ [w]) =
      (u ++ us.flatMap (fun v => ' ' :: v) ++ [ ' ' ]) ++ w := by
  show u ++ ((us ++ [w]).flatMap (fun v => ' ' :: v)) = _
  rw [List.flatMap_append]
  simp [List.append_assoc]

/-- The separator-prefixed tail of a join is empty or starts with a
space. -/
theorem flatMap_sep_shape (ws : List (List Char)) :
    ws.flatMap (fun v => ' ' :: v) = [] ∨
    ∃ r2, ws.flatMap (fun v => ' ' :: v) = ' ' :: r2 := by
  cases ws with
  | nil => left; rfl
  | cons w ws2 =>
    right
    exact ⟨w ++ ws2.flatMap (fun v => ' ' :: v), by
      rw [List.flatMap_cons]; rfl⟩

/-- A joined nonempty word list reversed starts with the last word's last
character, which is not whitespace. -/
theorem joinWords_reverse_shape (ws : List (List Char)) (hne : ws ≠ [])
    (h : ∀ w ∈ ws, w ≠ [] ∧ ∀ c ∈ w, isJsWs c = false) :
    ∃ d r, (joinWords ws).reverse = d :: r ∧ isJsWs d = false := by
  obtain (rfl | ⟨L, w, rfl⟩) := List.eq_nil_or_concat ws
  · exact absurd rfl hne
  · obtain ⟨hwne, hwnw⟩ := h w (by simp)
    obtain ⟨c, t, rfl⟩ : ∃ c t, w = c :: t := by
      cases w with
      | nil => exact absurd rfl hwne
      | cons c t => exact ⟨_, _, rfl⟩
    obtain ⟨Z, hZ⟩ : ∃ Z, joinWords (L ++ [c :: t]) = Z ++ (c :: t) := by
      cases L with
      | nil => exact ⟨[], by show (c :: t) ++ [] = [] ++ (c :: t); simp⟩
      | cons u us =>
        exact ⟨u ++ us.flatMap (fun v => ' ' :: v) ++ [ ' ' ],
          joinWords_concat u us (c :: t)⟩
    rw [List.concat_eq_append, hZ, List.reverse_append]
    obtain ⟨d, r, hdr⟩ : ∃ d r, (c :: t).reverse = d :: r := by
      cases hrev : (c :: t).reverse with
      | nil => exact absurd (List.reverse_eq_nil_iff.mp hrev) (by simp)
      | cons d r => exact ⟨d, r, rfl⟩
    rw [hdr, List.cons_append]
    refine ⟨d, r ++ Z.reverse, rfl, ?_⟩
    have hdmem : d ∈ (c :: t) := by
      rw [← List.mem_reverse, hdr]
      simp
    exact hwnw d hdmem

/-- Trimming a joined list of nonempty whitespace-free words is the
identity. -/
theorem trimJs_joinWords (ws : List (List Char)) (hne : ws ≠ [])
    (h : ∀ w ∈ ws, w ≠ [] ∧ ∀ c ∈ w, isJsWs c = false) :
    trimJs (joinWords ws) = joinWords ws := by
  obtain ⟨w0, ws2, rfl⟩ : ∃ w0 ws2, ws = w0 :: ws2 := by
    cases ws with
    | nil => exact absurd rfl hne
    | cons w0 ws2 => exact ⟨_, _, rfl⟩
  obtain ⟨hw0, hw0c⟩ := h w0 (by simp)
  obtain ⟨c, t, rfl⟩ : ∃ c t, w0 = c :: t := by
    cases w0 with
    | nil => exact absurd rfl hw0
    | cons c t => exact ⟨_, _, rfl⟩
  obtain ⟨d, r, hdr, hd⟩ := joinWords_reverse_shape _ (by simp) h
  exact trimJs_eq_self _ c (t ++ ws2.flatMap (fun v => ' ' :: v)) rfl
    (hw0c c (by simp)) d r hdr hd

/-- Lowercasing a separator-joined tail of already-lowercase words is the
identity. -/
theorem map_toLower_sepTail (ws : List (List Char))
    (h : ∀ w ∈ ws, w.map Char.toLower = w) :
    (ws.flatMap (fun v => ' ' :: v)).map Char.toLower =
      ws.flatMap (fun v => ' ' :: v) := by
  induction ws with
  | nil => rfl
  | cons w ws2 ih =>
    rw [List.flatMap_cons, List.map_append]
    simp only [List.map_cons]
    rw [show Char.toLower ' ' = ' ' from rfl]
    rw [h w (by simp), ih (fun x hx => h x (by simp [hx]))]

/-- Lowercasing a join of already-lowercase words is the identity. -/
theorem map_toLower_joinWords (ws : List (List Char))
    (h : ∀ w ∈ ws, w.map Char.toLower = w) :
    (joinWords ws).map Char.toLower = joinWords ws := by
  cases ws with
  | nil => rfl
  | cons w ws2 =>
    show (w ++ ws2.flatMap (fun v => ' ' :: v)).map Char.toLower = _
    rw [List.map_append, h w (by simp),
      map_toLower_sepTail ws2 (fun x hx => h x (by simp [hx]))]
    rfl

/-- Equation for `splitWs` on a whitespace head. -/
theorem splitWs_cons_ws (c : Char) (t : List Char) (h : isJsWs c = true) :
    splitWs (c :: t) = splitWs t := by
  rw [splitWs.eq_def]
  dsimp only
  rw [if_pos h]

/-- Equation for `splitWs` on a word head. -/
theorem splitWs_cons_word (c : Char) (t : List Char) (h : isJsWs c = false) :
    splitWs (c :: t) =
      (c :: t.takeWhile (fun x => ! isJsWs x)) ::
        splitWs (t.dropWhile (fun x => ! isJsWs x)) := by
  rw [splitWs.eq_def]
  dsimp only
  rw [if_neg (by simp [h])]

/-- `splitWs` peels a leading whitespace-free word followed by a
separator or the end. -/
theorem splitWs_word (c : Char) (t r : List Char)
    (hcw : isJsWs c = false) (htw : ∀ x ∈ t, isJsWs x = false)
    (hr : r = [] ∨ ∃ r2, r = ' ' :: r2) :
    splitWs ((c :: t) ++ r) = (c :: t) :: splitWs r := by
  rw [List.cons_append, splitWs_cons_word c _ hcw]
  have htake : (t ++ r).takeWhile (fun x => ! isJsWs x) = t := by
    rw [takeWhile_append_pos _ _ _ (fun x hx => by simp [htw x hx])]
    rcases hr with rfl | ⟨r2, rfl⟩
    · simp
    · rw [List.takeWhile_cons, if_neg (by decide)]
      simp
  have hdrop : (t ++ r).dropWhile (fun x => ! isJsWs x) = r := by
    rw [dropWhile_append_pos _ _ _ (fun x hx => by simp [htw x hx])]
    rcases hr with rfl | ⟨r2, rfl⟩
    · simp
    · rw [List.dropWhile_cons, if_neg (by decide)]
  rw [htake, hdrop]

/-- `splitWs` recovers the words of a separator-prefixed join tail. -/
theorem splitWs_joinTail (ws : List (List Char))
    (h : ∀ w ∈ ws, w ≠ [] ∧ ∀ c ∈ w, isJsWs c = false) :
    splitWs (ws.flatMap (fun v => ' ' :: v)) = ws := by
  induction ws with
  | nil =>
    show splitWs [] = []
    rw [splitWs.eq_def]
  | cons w ws2 ih =>
    rw [List.flatMap_cons]
    obtain ⟨hne, hnw⟩ := h w (by simp)
    obtain ⟨c, t, rfl⟩ : ∃ c t, w = c :: t := by
      cases w with
      | nil => exact absurd rfl hne
      | cons c t => exact ⟨_, _, rfl⟩
    show splitWs (' ' :: ((c :: t) ++ ws2.flatMap (fun v => ' ' :: v))) = _
    rw [splitWs_cons_ws ' ' _ (by decide)]
    rw [splitWs_word c t _ (hnw c (by simp))
      (fun x hx => hnw x (by simp [hx])) (flatMap_sep_shape ws2)]
    rw [ih (fun x hx => h x (by simp [hx]))]

/-- `splitWs` recovers the words of a join of nonempty whitespace-free
words. -/
theorem splitWs_joinWords (ws : List (List Char))
    (h : ∀ w ∈ ws, w ≠ [] ∧ ∀ c ∈ w, isJsWs c = false) :
    splitWs (joinWords ws) = ws := by
  cases ws with
  | nil =>
    show splitWs [] = []
    rw [splitWs.eq_def]
  | cons w ws2 =>
    obtain ⟨hne, hnw⟩ := h w (by simp)
    obtain ⟨c, t, rfl⟩ : ∃ c t, w = c :: t := by
      cases w with
      | nil => exact absurd rfl hne
      | cons c t => exact ⟨_, _, rfl⟩
    show splitWs ((c :: t) ++ ws2.flatMap (fun v => ' ' :: v)) = _
    rw [splitWs_word c t _ (hnw c (by simp))
      (fun x hx => hnw x (by simp [hx])) (flatMap_sep_shape ws2)]
    rw [splitWs_joinTail ws2 (fun x hx => h x (by simp [hx]))]

/-- Length of a `flatMap` with constant piece size. -/
theorem flatMap_length_const {α β : Type} (f : α → List β) (k : Nat)
    (hf : ∀ a, (f a).length = k) :
    ∀ l : List α, (l.flatMap f).length = l.length * k := by
  intro l
  induction l with
  | nil => simp
  | cons a t ih =>
    rw [List.flatMap_cons, List.length_append, hf a, ih, List.length_cons]
    ring

/-- Core of the mnemonic round trip, parametric in the word count and its
strength parameters. -/
theorem generateMnemonic_valid_aux (sha : List Nat → List Nat)
    (rand : Nat → List Nat)
    (hrlen : ∀ k, (rand k).length = k)
    (hrb : ∀ k, ∀ b ∈ rand k, b < 256)
    (n strength cs : Nat)
    (hstr : strengthOf n = some strength)
    (hcs : strength / 32 = cs)
    (h8 : strength / 8 * 8 = strength)
    (hcs8 : cs ≤ 8)
    (h11 : strength + cs = 11 * n)
    (hent : n * 11 * 32 / 33 = strength)
    (hnpos : 0 < n) :
    ∃ m, Mnemo.generateMnemonic sha wlMock rand n = .ok m ∧
      (splitWs m).length = n ∧
      (∀ w ∈ splitWs m, w ∈ wlMock) ∧
      Mnemo.validateMnemonic sha wlMock m = true := by
  set E := rand (strength / 8) with hE
  set bitsE := E.flatMap (bitsBE 8) with hbitsE
  set bitsC := (bitsBE 8 ((sha E).headD 0)).take (strength / 32) with hbitsC
  set bits := bitsE ++ bitsC with hbits2
  set C := chunksOf 11 bits with hCdef
  set words := C.map (fun g => wlMock.getD (foldBase 2 g) []) with hwords
  set m := joinWords words with hm
  have hel : E.length = strength / 8 := hrlen _
  have heb : ∀ b ∈ E, b < 256 := hrb _
  have hbitsE_len : bitsE.length = strength := by
    rw [hbitsE, flatMap_length_const (bitsBE 8) 8 (bitsBE_length 8) E, hel, h8]
  have hbitsC_len : bitsC.length = cs := by
    rw [hbitsC, List.length_take, bitsBE_length, hcs]
    omega
  have hbits_len : bits.length = n * 11 := by
    rw [hbits2, List.length_append, hbitsE_len, hbitsC_len]
    omega
  have hbitlt : ∀ b ∈ bits, b < 2 := by
    intro b hb
    rw [hbits2] at hb
    rcases List.mem_append.mp hb with hb | hb
    · rw [hbitsE] at hb
      obtain ⟨a, _, hmem⟩ := List.mem_flatMap.mp hb
      exact bitsBE_lt 8 a b hmem
    · rw [hbitsC] at hb
      exact bitsBE_lt 8 _ b (List.take_subset _ _ hb)
  obtain ⟨hC_len, hC_each, hC_flat⟩ :=
    chunksOf_exact 11 (by omega) n bits (by rw [hbits_len])
  rw [← hCdef] at hC_len hC_each hC_flat
  have hmem_bits : ∀ g ∈ C, ∀ d ∈ g, d ∈ bits := by
    intro g hg d hd
    rw [← hC_flat]
    exact List.mem_flatMap.mpr ⟨g, hg, by simpa using hd⟩
  have hidx : ∀ g ∈ C, foldBase 2 g < 2048 := by
    intro g hg
    have h1 := foldBase_lt 2 g (fun d hd => hbitlt d (hmem_bits g hg d hd))
    rw [hC_each g hg] at h1
    norm_num at h1
    exact h1
  have hword_eq : ∀ g ∈ C, wlMock.getD (foldBase 2 g) [] =
      mkMockWord (foldBase 2 g) :=
    fun g hg => wlMock_getD _ (hidx g hg)
  have hwords_props : ∀ w ∈ words, w ≠ [] ∧ ∀ c ∈ w, isJsWs c = false := by
    intro w hw
    rw [hwords] at hw
    obtain ⟨g, hg, rfl⟩ := List.mem_map.mp hw
    rw [hword_eq g hg]
    have hb17 : foldBase 2 g < 17576 := by
      have := hidx g hg
      omega
    refine ⟨mkMockWord_ne_nil _, fun c hc => ?_⟩
    have := mkMockWord_noWs _ hb17 c hc
    simpa using this
  have hlen_words : words.length = n := by
    rw [hwords, List.length_map, hC_len]
  have hwords_ne : words ≠ [] := by
    intro hnil
    rw [hnil] at hlen_words
    simp at hlen_words
    omega
  have hsplit : splitWs m = words := splitWs_joinWords words hwords_props
  have hgen : Mnemo.generateMnemonic sha wlMock rand n = .ok m := by
    unfold Mnemo.generateMnemonic
    rw [hstr]
  have htrim : trimJs m = m := trimJs_joinWords words hwords_ne hwords_props
  have hlower : m.map Char.toLower = m := by
    rw [hm]
    apply map_toLower_joinWords
    intro w hw
    rw [hwords] at hw
    obtain ⟨g, hg, rfl⟩ := List.mem_map.mp hw
    rw [hword_eq g hg]
    exact mkMockWord_lower _ (by have := hidx g hg; omega)
  have hws : splitWs ((trimJs m).map Char.toLower) = words := by
    rw [htrim, hlower]
    exact hsplit
  have hlenw : strengthOf words.length = some strength := by
    rw [hlen_words]
    exact hstr
  have hids : words.mapM (fun w => wlMock.findIdx? (fun x => x == w)) =
      some (C.map (fun g => foldBase 2 g)) := by
    rw [hwords]
    apply mapM_map_some
    intro g hg
    rw [hword_eq g hg]
    exact wlMock_findIdx _ (hidx g hg)
  have hchunk_id : ∀ c ∈ C, bitsBE 11 (foldBase 2 c) = c := by
    intro c hc
    have hb := bitsBE_foldBase c (fun b hb => hbitlt b (hmem_bits c hc b hb))
    rw [hC_each c hc] at hb
    exact hb
  have hflat2 : (C.map (fun g => foldBase 2 g)).flatMap (bitsBE 11) = bits := by
    rw [List.flatMap_def, List.map_map]
    rw [List.map_congr_left
      (fun c hc => by
        show (bitsBE 11 ∘ fun g => foldBase 2 g) c = id c
        simp only [Function.comp_apply, id]
        exact hchunk_id c hc)]
    rw [List.map_id]
    rw [← hC_flat, List.flatMap_def, List.map_id]
  have hent' : words.length * 11 * 32 / 33 = strength := by
    rw [hlen_words]
    exact hent
  have htake : bits.take strength = bitsE := by
    rw [hbits2]
    exact List.take_left' hbitsE_len
  have hdrop : bits.drop strength = bitsC := by
    rw [hbits2]
    exact List.drop_left' hbitsE_len
  have hcslen : bits.length - strength = cs := by
    rw [hbits_len]
    omega
  have hEB : (chunksOf 8 bitsE).map (foldBase 2) = E := by
    rw [hbitsE, chunksOf_flatMap 8 (by omega) (bitsBE 8) (bitsBE_length 8)]
    rw [List.map_map]
    rw [List.map_congr_left
      (fun a ha => by
        show (foldBase 2 ∘ bitsBE 8) a = id a
        simp only [Function.comp_apply, id]
        exact foldBase_bitsBE 8 a (by
          have := heb a ha
          norm_num
          omega))]
    exact List.map_id E
  have hval : Mnemo.validateMnemonic sha wlMock m = true := by
    unfold Mnemo.validateMnemonic
    dsimp only
    rw [hws, hlenw]
    dsimp only
    rw [hids]
    dsimp only
    rw [hflat2, hent', htake, hdrop, hcslen, hEB]
    rw [hbitsC]
    simp [hcs]
  exact ⟨m, hgen, by rw [hsplit]; exact hlen_words, by
    rw [hsplit]
    intro w hw
    rw [hwords] at hw
    obtain ⟨g, hg, rfl⟩ := List.mem_map.mp hw
    rw [hword_eq g hg]
    exact wlMock_mem _ (hidx g hg), hval⟩

/-- C7: for each word count in {12, 15, 18, 21, 24} and every behaviour
of the entropy source (any function returning the requested number of
bytes), `generateMnemonic` produces a phrase of exactly that many words,
each drawn from the 2048-entry wordlist, and `validateMnemonic` accepts
the phrase. -/
theorem generateMnemonic_valid (sha : List Nat → List Nat)
    (rand : Nat → List Nat)
    (hrlen : ∀ k, (rand k).length = k)
    (hrb : ∀ k, ∀ b ∈ rand k, b < 256)
    (n : Nat) (hn : n = 12 ∨ n = 15 ∨ n = 18 ∨ n = 21 ∨ n = 24) :
    ∃ m, Mnemo.generateMnemonic sha wlMock rand n = .ok m ∧
      (splitWs m).length = n ∧
      (∀ w ∈ splitWs m, w ∈ wlMock) ∧
      Mnemo.validateMnemonic sha wlMock m = true := by
  rcases hn with rfl | rfl | rfl | rfl | rfl
  · exact generateMnemonic_valid_aux sha rand hrlen hrb 12 128 4
      (by decide) (by decide) (by decide) (by decide) (by decide) (by decide)
      (by decide)
  · exact generateMnemonic_valid_aux sha rand hrlen hrb 15 160 5
      (by decide) (by decide) (by decide) (by decide) (by decide) (by decide)
      (by decide)
  · exact generateMnemonic_valid_aux sha rand hrlen hrb 18 192 6
      (by decide) (by decide) (by decide) (by decide) (by decide) (by decide)
      (by decide)
  · exact generateMnemonic_valid_aux sha rand hrlen hrb 21 224 7
      (by decide) (by decide) (by decide) (by decide) (by decide) (by decide)
      (by decide)
  · exact generateMnemonic_valid_aux sha rand hrlen hrb 24 256 8
      (by decide) (by decide) (by decide) (by decide) (by decide) (by decide)
      (by decide)

theorem generateMnemonic_valid_witness :
    ∃ m, Mnemo.generateMnemonic shaZero wlMock randZero 12 = .ok m ∧
      (splitWs m).length = 12 ∧
      (∀ w ∈ splitWs m, w ∈ wlMock) ∧
      Mnemo.validateMnemonic shaZero wlMock m = true :=
  generateMnemonic_valid shaZero randZero (fun k => by simp [randZero])
    (fun k b hb => by
      have hz := List.eq_of_mem_replicate (by simpa [randZero] using hb)
      omega)
    12 (Or.inl rfl)
